import Mathlib

/-!
# website-searcher: a verification development

Two Go programs fetch a list of urls, match every body against one compiled
regular expression and write one row per url:

* `WebsiteSearcherA/main.go`: a pipeline of goroutines joined by unbuffered
  channels (`readURLs`, `maxgo` `fetch` workers, `parallelSearch` with one
  `search` goroutine per response, `writeResults`);
* `WebsiteSearcherB/main.go`: `main` spawns one `fetchAndSearch` goroutine
  per url, gated by a buffered channel of capacity `maxGo` used as a
  semaphore; rows are written under a mutex.

The sequential functions are embedded as Lean functions.  What the outside
world answers (the result of `client.Get`, of `ioutil.ReadAll`, of
`regex.Match`) is an input of these functions.  The goroutines are embedded
as a step function on an explicit state, one labelled action per atomic
step, a communication on an unbuffered channel being one joint step of the
sender and of the receiver.  A step that does not touch a channel, a wait
group or the mutex (the GET, the read of the body and the match) is one
step of its goroutine and is always enabled.

The runs considered are those in which no `log.Fatalln` is reached: the
input file opens and parses, the output file is created and the writes to it
succeed.  The input is given as the list of the second fields of its data
records, in order.
-/

namespace WebsiteSearcher

/-! ## Data -/

/-- A byte string, as returned by `ioutil.ReadAll`. -/
abbrev Bytes := List UInt8

/-- A non-nil Go `error`, identified with its message (`err.Error()`). -/
abbrev Err := String

/-- A compiled `*regexp.Regexp`, identified with its `Match` method. -/
abbrev Regexp := Bytes → Bool

/-- An `io.ReadCloser` response body: the pair `ioutil.ReadAll` returns on it
(the bytes read, and the error that stopped the read, if any). -/
structure Body where
  data : Bytes
  readErr : Option Err
deriving DecidableEq, Repr

/-- The call `ioutil.ReadAll(body)`. -/
def ReadAll (b : Body) : Bytes × Option Err := (b.data, b.readErr)

/-- The part of `http.Response` the programs use. -/
structure Response where
  StatusCode : Nat
  Body : Body
deriving DecidableEq, Repr

/-- The constant `http.StatusOK`. -/
def StatusOK : Nat := 200

/-- What `client.Get` returns: with a nil error the response is not nil
(the contract of `net/http`); with an error a response may or may not come
along. -/
inductive GetResult where
  | ok (resp : Response)
  | fail (resp : Option Response) (err : Err)
deriving DecidableEq, Repr

/-- The first value returned by `client.Get` (`nil` is `none`). -/
def GetResult.resp : GetResult → Option Response
  | .ok r => some r
  | .fail r _ => r

/-- The second value returned by `client.Get` (`nil` is `none`). -/
def GetResult.err : GetResult → Option Err
  | .ok _ => none
  | .fail _ e => some e

/-- The operations a task performs on a response body. -/
inductive BodyOp where
  | readAll
  | close
deriving DecidableEq, Repr

/-! ## Variant A: sequential functions -/

/-- The constant `maxgo` of variant A. -/
def maxgo : Nat := 20

/-- The struct `HTTPResponse` of variant A. -/
structure HTTPResponse where
  url : String
  response : Option Response
  err : Option Err
deriving DecidableEq, Repr

/-- The struct `SearchResult` of variant A. -/
structure SearchResult where
  url : String
  result : Bool
  err : Option Err
deriving DecidableEq, Repr

/-- The value `&HTTPResponse{url, resp, err}` that `fetch` sends on `rc`. -/
def fetchResponse (url : String) (g : GetResult) : HTTPResponse :=
  { url := url, response := g.resp, err := g.err }

/-- The end of an iteration of `fetch`, after the send on `rc`:
`if err != nil && resp != nil && resp.StatusCode == http.StatusOK { resp.Body.Close() }`.
The value is the list of operations performed on the body. -/
def fetchAfterSend (r : HTTPResponse) : List BodyOp :=
  match r.err, r.response with
  | some _, some resp => if resp.StatusCode = StatusOK then [BodyOp.close] else []
  | _, _ => []

/-- The function `search` of variant A: the `SearchResult` it sends on `src`
and the operations it performs on the body.  `none` is the nil dereference
of `resp.response.Body` (no error and no response). -/
def search (resp : HTTPResponse) (regex : Regexp) : Option (SearchResult × List BodyOp) :=
  match resp.err with
  | some e => some ({ url := resp.url, result := false, err := some e }, [])
  | none =>
    match resp.response with
    | none => none
    | some response =>
      match ReadAll response.Body with
      | (_, some err) =>
        some ({ url := resp.url, result := false, err := some err }, [BodyOp.readAll])
      | (bytes, none) =>
        some ({ url := resp.url, result := regex bytes, err := none }, [BodyOp.readAll])

/-- The function `createRecord` of variant A (`%t` prints `true` or `false`). -/
def createRecord (sr : SearchResult) : List String :=
  let record : List String := []
  let record := record ++ [sr.url]
  let record := record ++ [if sr.result then "true" else "false"]
  match sr.err with
  | some e => record ++ [e]
  | none => record ++ [""]

/-- The function `createHeaders` of variant A. -/
def createHeaders : List String :=
  let record : List String := []
  let record := record ++ ["url"]
  let record := record ++ ["result"]
  record ++ ["error"]

/-! ## Variant B: sequential functions -/

/-- The constant `maxGo` of variant B. -/
def maxGo : Nat := 20

/-- The arguments of one call `writeToFile(f, url, res, err)`. -/
structure Row where
  url : String
  res : Bool
  err : Option Err
deriving DecidableEq, Repr

/-- The function `fetchAndSearch` of variant B between its two deferred
calls: the row it hands to `writeToFile` and the operations it performs on
the body (`defer resp.Body.Close()` runs when the function returns). -/
def fetchAndSearch (url : String) (g : GetResult) (re : Regexp) : Row × List BodyOp :=
  match g with
  | .fail _ err => ({ url := url, res := false, err := some err }, [])
  | .ok resp =>
    match ReadAll resp.Body with
    | (_, some err) =>
      ({ url := url, res := false, err := some err }, [BodyOp.readAll, BodyOp.close])
    | (bytes, none) =>
      ({ url := url, res := re bytes, err := none }, [BodyOp.readAll, BodyOp.close])

/-! ## Variant B: the goroutines

`main` reads the input record by record; the state keeps `rows`, the second
field (`line[1]`) of the data records not read yet (the header record is
skipped by `main` and is not part of `rows`).  `sem` is the number of values
held by the buffered channel `sem`, whose capacity is `maxGo`; `mu` tells
whether the mutex `mu` is locked; `out` is the sequence of rows written to
the output file by `f.WriteString`, in order. -/

/-- Where a `fetchAndSearch` goroutine stands. -/
inductive PcB where
  /-- at `client.Get`; the step runs the function up to its call of `writeToFile` -/
  | get
  /-- in `writeToFile`, at `mu.Lock()` -/
  | lock (row : Row)
  /-- holding `mu`, at `f.WriteString(s)` -/
  | write (row : Row)
  /-- holding `mu`, at the deferred `mu.Unlock()` -/
  | unlock
  /-- at the deferred `<-sem` (after the deferred `resp.Body.Close()`) -/
  | release
  /-- returned -/
  | done
deriving DecidableEq, Repr

/-- A `fetchAndSearch` goroutine: its argument `url` and where it stands. -/
structure TaskB where
  url : String
  pc : PcB
deriving DecidableEq, Repr

/-- Where `main` of variant B stands. -/
inductive MainB where
  /-- at `r.Read()`, the top of the reading loop -/
  | read
  /-- at `sem <- true` of the reading loop, with `line[1]` -/
  | acquire (url : String)
  /-- at `go fetchAndSearch(line[1], ...)` -/
  | spawn (url : String)
  /-- in the final loop, at the test `i < cap(sem)` -/
  | fill (i : Nat)
  /-- past the final loop -/
  | finished
deriving DecidableEq, Repr

/-- The state of a run of variant B. -/
structure StateB where
  rows : List String
  main : MainB
  sem : Nat
  mu : Bool
  tasks : List TaskB
  out : List Row
deriving DecidableEq, Repr

/-- The state in which `main` enters its reading loop. -/
def initB (input : List String) : StateB :=
  { rows := input, main := .read, sem := 0, mu := false, tasks := [], out := [] }

/-- One atomic step of a run of variant B: a step of `main`, or a step of the
goroutine number `j`; `g` is what `client.Get` (and the read of the body)
answer when the step is the one at `client.Get`. -/
inductive ActB where
  | main
  | task (j : Nat) (g : GetResult)
deriving DecidableEq, Repr

/-- A step of `main`.  A send on `sem` needs a free slot; `cap(sem)` is
`maxGo`. -/
def stepMainB (s : StateB) : Option StateB :=
  match s.main with
  | .read =>
    match s.rows with
    | [] => some { s with main := .fill 0 }
    | url :: rest => some { s with rows := rest, main := .acquire url }
  | .acquire url =>
    if s.sem < maxGo then some { s with sem := s.sem + 1, main := .spawn url } else none
  | .spawn url =>
    some { s with tasks := s.tasks ++ [{ url := url, pc := .get }], main := .read }
  | .fill i =>
    if i < maxGo then
      if s.sem < maxGo then some { s with sem := s.sem + 1, main := .fill (i + 1) } else none
    else some { s with main := .finished }
  | .finished => none

/-- A step of the goroutine number `j`.  `mu.Lock()` needs the mutex free;
the receive `<-sem` needs a value in the channel. -/
def stepFetchAndSearch (re : Regexp) (s : StateB) (j : Nat) (g : GetResult) : Option StateB :=
  match s.tasks[j]? with
  | none => none
  | some t =>
    match t.pc with
    | .get =>
      some { s with tasks := s.tasks.set j { t with pc := .lock (fetchAndSearch t.url g re).1 } }
    | .lock row =>
      if s.mu then none
      else some { s with mu := true, tasks := s.tasks.set j { t with pc := .write row } }
    | .write row =>
      some { s with out := s.out ++ [row], tasks := s.tasks.set j { t with pc := .unlock } }
    | .unlock =>
      some { s with mu := false, tasks := s.tasks.set j { t with pc := .release } }
    | .release =>
      if 0 < s.sem then
        some { s with sem := s.sem - 1, tasks := s.tasks.set j { t with pc := .done } }
      else none
    | .done => none

/-- One step of variant B; `none` when the action is not enabled. -/
def stepB (re : Regexp) (s : StateB) : ActB → Option StateB
  | .main => stepMainB s
  | .task j g => stepFetchAndSearch re s j g

/-- The state reached from `s` by a sequence of actions, if all are enabled. -/
def runB (re : Regexp) (s : StateB) : List ActB → Option StateB
  | [] => some s
  | a :: as =>
    match stepB re s a with
    | none => none
    | some s' => runB re s' as

/-- The states a run of variant B on `input` can be in. -/
def ReachableB (re : Regexp) (input : List String) (s : StateB) : Prop :=
  ∃ acts, runB re (initB input) acts = some s

/-- The goroutine has been started and has not released its slot yet. -/
def TaskB.running (t : TaskB) : Bool :=
  match t.pc with
  | .done => false
  | _ => true

/-- The number of started goroutines that have not released their slot. -/
def runningB (s : StateB) : Nat := (s.tasks.filter TaskB.running).length

/-! ## Variant A: the goroutines

The state is the one `main` is in when it enters `writeResults`: `readURLs`,
`parallelFetch` and `parallelSearch` have returned, the goroutines they
start exist and none has moved yet.  `rows` is the second field (`line[1]`)
of the data records the goroutine of `readURLs` has not sent yet (it skips
the header record, which is not part of `rows`); `urlsClosed` tells whether
it has closed `urls`.  The channel `rc` is closed when `closerF` is `done`,
the channel `sr` when `closerS` is `done`.  `wgF` and `wgS` are the counters
of the wait groups of `parallelFetch` and `parallelSearch`.  `out` is the
sequence of records handed to the csv writer, which are in the file when
`Flush` has returned. -/

/-- Where a `fetch` worker (with the `wg.Done()` that follows it) stands. -/
inductive WorkerPc where
  /-- at `for url := range urlsc` -/
  | recv
  /-- at `client.Get("http://" + url)` -/
  | get (url : String)
  /-- at `rc <- &HTTPResponse{url, resp, err}` -/
  | send (r : HTTPResponse)
  /-- at the `if` that follows the send -/
  | afterSend (r : HTTPResponse)
  /-- out of the loop, at `wg.Done()` -/
  | wgDone
  /-- returned -/
  | done
deriving DecidableEq, Repr

/-- Where a goroutine `wg.Wait(); close(ch)` stands. -/
inductive CloserPc where
  /-- not started yet -/
  | idle
  /-- at `wg.Wait()` -/
  | wait
  /-- at `close(ch)` -/
  | close
  /-- returned: the channel is closed -/
  | done
deriving DecidableEq, Repr

/-- Where the outer goroutine of `parallelSearch` stands. -/
inductive DispPc where
  /-- at `for r := range respc` -/
  | recv
  /-- at `wg.Add(1)` -/
  | add (r : HTTPResponse)
  /-- at `go func(r *HTTPResponse) {...}(r)` -/
  | spawn (r : HTTPResponse)
  /-- out of the loop, at `go func() { wg.Wait(); close(sr) }()` -/
  | spawnCloser
  /-- returned -/
  | done
deriving DecidableEq, Repr

/-- Where a goroutine `search(r, sr, regex); wg.Done()` stands. -/
inductive SearchPc where
  /-- in `search`, before its send -/
  | search (r : HTTPResponse)
  /-- at `src <- &SearchResult{...}` -/
  | send (sr : SearchResult)
  /-- at `wg.Done()` -/
  | wgDone
  /-- returned -/
  | done
deriving DecidableEq, Repr

/-- Where `writeResults` stands. -/
inductive WriterPc where
  /-- at `os.Create(outPath)` -/
  | create
  /-- at `writer.Write(createHeaders())` -/
  | header
  /-- at `for sr := range src` -/
  | recv
  /-- at `writer.Write(createRecord(sr))` -/
  | write (sr : SearchResult)
  /-- at `writer.Flush()` -/
  | flush
  /-- returned -/
  | done
deriving DecidableEq, Repr

/-- The state of a run of variant A. -/
structure StateA where
  rows : List String
  urlsClosed : Bool
  workers : List WorkerPc
  wgF : Nat
  closerF : CloserPc
  disp : DispPc
  searches : List SearchPc
  wgS : Nat
  closerS : CloserPc
  writer : WriterPc
  out : List (List String)
deriving DecidableEq, Repr

/-- The state in which `main` enters `writeResults`. -/
def initA (input : List String) : StateA :=
  { rows := input, urlsClosed := false, workers := List.replicate maxgo .recv, wgF := maxgo,
    closerF := .wait, disp := .recv, searches := [], wgS := 0, closerS := .idle,
    writer := .create, out := [] }

/-- One atomic step of a run of variant A.  `worker i g` is a step of the
worker number `i` alone or its receive of a url sent by `readURLs`, `g`
being what `client.Get` answers when the step is the one at `client.Get`;
`handOver i` is the send of worker `i` on `rc` received by `parallelSearch`;
`deliver j` is the send of the search goroutine `j` on `sr` received by
`writeResults`. -/
inductive ActA where
  | reader
  | worker (i : Nat) (g : GetResult)
  | handOver (i : Nat)
  | closerF
  | disp
  | search (j : Nat)
  | deliver (j : Nat)
  | closerS
  | writer
deriving DecidableEq, Repr

/-- The goroutine of `readURLs` at the end of the file: the deferred
`close(urls)`. -/
def stepReadURLs (s : StateA) : Option StateA :=
  match s.rows with
  | [] => if s.urlsClosed then none else some { s with urlsClosed := true }
  | _ :: _ => none

/-- A step of the worker number `i`.  At `range urlsc` it receives the url
`readURLs` is sending, or leaves the loop when `urls` is closed.
`wg.Done()` needs a positive counter. -/
def stepFetch (s : StateA) (i : Nat) (g : GetResult) : Option StateA :=
  match s.workers[i]? with
  | none => none
  | some pc =>
    match pc with
    | .recv =>
      match s.rows with
      | url :: rest => some { s with rows := rest, workers := s.workers.set i (.get url) }
      | [] =>
        if s.urlsClosed then some { s with workers := s.workers.set i .wgDone } else none
    | .get url => some { s with workers := s.workers.set i (.send (fetchResponse url g)) }
    | .send _ => none
    | .afterSend _ => some { s with workers := s.workers.set i .recv }
    | .wgDone =>
      if 0 < s.wgF then some { s with wgF := s.wgF - 1, workers := s.workers.set i .done }
      else none
    | .done => none

/-- The send of worker `i` on `rc`, received by `parallelSearch`; a send on a
closed channel is not a step. -/
def stepHandOver (s : StateA) (i : Nat) : Option StateA :=
  match s.workers[i]?, s.disp with
  | some (.send r), .recv =>
    if s.closerF = .done then none
    else some { s with workers := s.workers.set i (.afterSend r), disp := .add r }
  | _, _ => none

/-- A step of a goroutine `wg.Wait(); close(ch)`, `wg` being the counter. -/
def stepCloser (pc : CloserPc) (wg : Nat) : Option CloserPc :=
  match pc with
  | .idle => none
  | .wait => if wg = 0 then some .close else none
  | .close => some .done
  | .done => none

/-- A step of the outer goroutine of `parallelSearch`; it leaves its loop
when `rc` is closed. -/
def stepParallelSearch (s : StateA) : Option StateA :=
  match s.disp with
  | .recv => if s.closerF = .done then some { s with disp := .spawnCloser } else none
  | .add r => some { s with wgS := s.wgS + 1, disp := .spawn r }
  | .spawn r => some { s with searches := s.searches ++ [.search r], disp := .recv }
  | .spawnCloser => some { s with closerS := .wait, disp := .done }
  | .done => none

/-- A step of the search goroutine number `j`. -/
def stepSearch (regex : Regexp) (s : StateA) (j : Nat) : Option StateA :=
  match s.searches[j]? with
  | none => none
  | some pc =>
    match pc with
    | .search r =>
      match search r regex with
      | some (sr, _) => some { s with searches := s.searches.set j (.send sr) }
      | none => none
    | .send _ => none
    | .wgDone =>
      if 0 < s.wgS then some { s with wgS := s.wgS - 1, searches := s.searches.set j .done }
      else none
    | .done => none

/-- The send of the search goroutine `j` on `sr`, received by `writeResults`. -/
def stepDeliver (s : StateA) (j : Nat) : Option StateA :=
  match s.searches[j]?, s.writer with
  | some (.send sr), .recv =>
    if s.closerS = .done then none
    else some { s with searches := s.searches.set j .wgDone, writer := .write sr }
  | _, _ => none

/-- A step of `writeResults`; it leaves its loop when `sr` is closed. -/
def stepWriteResults (s : StateA) : Option StateA :=
  match s.writer with
  | .create => some { s with writer := .header }
  | .header => some { s with out := s.out ++ [createHeaders], writer := .recv }
  | .recv => if s.closerS = .done then some { s with writer := .flush } else none
  | .write sr => some { s with out := s.out ++ [createRecord sr], writer := .recv }
  | .flush => some { s with writer := .done }
  | .done => none

/-- One step of variant A; `none` when the action is not enabled. -/
def stepA (regex : Regexp) (s : StateA) : ActA → Option StateA
  | .reader => stepReadURLs s
  | .worker i g => stepFetch s i g
  | .handOver i => stepHandOver s i
  | .closerF => (stepCloser s.closerF s.wgF).map fun pc => { s with closerF := pc }
  | .disp => stepParallelSearch s
  | .search j => stepSearch regex s j
  | .deliver j => stepDeliver s j
  | .closerS => (stepCloser s.closerS s.wgS).map fun pc => { s with closerS := pc }
  | .writer => stepWriteResults s

/-- The state reached from `s` by a sequence of actions, if all are enabled. -/
def runA (regex : Regexp) (s : StateA) : List ActA → Option StateA
  | [] => some s
  | a :: as =>
    match stepA regex s a with
    | none => none
    | some s' => runA regex s' as

/-- The states a run of variant A on `input` can be in. -/
def ReachableA (regex : Regexp) (input : List String) (s : StateA) : Prop :=
  ∃ acts, runA regex (initA input) acts = some s

/-- The worker holds a target whose GET has started and whose `HTTPResponse`
it has not sent yet. -/
def WorkerPc.fetching : WorkerPc → Bool
  | .get _ => true
  | .send _ => true
  | _ => false

/-- The outer goroutine of `parallelSearch` holds a response for which it has
not started the search goroutine yet. -/
def DispPc.holding : DispPc → Bool
  | .add _ => true
  | .spawn _ => true
  | _ => false

/-- The search goroutine holds a target whose `SearchResult` it has not sent
yet. -/
def SearchPc.matching : SearchPc → Bool
  | .search _ => true
  | .send _ => true
  | _ => false

/-- The number of targets whose GET has started in `fetch` and whose
`HTTPResponse` has not been sent on `rc` yet. -/
def fetchingA (s : StateA) : Nat := (s.workers.filter WorkerPc.fetching).length

/-- The number of targets whose GET has started in `fetch` and whose
`SearchResult` has not been sent by `search` yet. -/
def inFlightA (s : StateA) : Nat :=
  fetchingA s + (if s.disp.holding then 1 else 0) + (s.searches.filter SearchPc.matching).length

/-- The first field of a record of the output, the target of the row. -/
def recordTarget (record : List String) : String := record.headD ""

/-! ## Variant B: the line written by `writeToFile`

`writeToFile` formats the url and the error with the verb `%q` of `fmt`,
which is `strconv.Quote` on the string (on `err.Error()` for an error): a
double-quoted Go string literal.  A string is the list of its runes. -/

/-- The double quote character. -/
def dquote : Char := Char.ofNat 34

/-- The backslash character. -/
def backslash : Char := Char.ofNat 92

/-- The function `strconv.IsPrint` on the runes up to U+00FF, as the Go
library computes it; `uni` stands for its tables on the other runes. -/
def IsPrint (uni : Char → Bool) (r : Char) : Bool :=
  if r.toNat ≤ 0xFF then
    if 0x20 ≤ r.toNat ∧ r.toNat ≤ 0x7E then true
    else if 0xA1 ≤ r.toNat ∧ r.toNat ≤ 0xFF then r.toNat != 0xAD
    else false
  else uni r

/-- The table `lowerhex` of `strconv`. -/
def lowerhex (n : Nat) : Char := "0123456789abcdef".toList.getD n '0'

/-- The `width` hexadecimal digits of `n`, most significant first. -/
def hexDigits (width n : Nat) : List Char :=
  (List.range width).reverse.map fun k => lowerhex (n / 16 ^ k % 16)

/-- What `strconv.Quote` writes for one rune: the quote and the backslash
are backslashed, a printable rune is copied, the others are escaped. -/
def appendEscapedRune (uni : Char → Bool) (r : Char) : List Char :=
  if r = dquote ∨ r = backslash then [backslash, r]
  else if IsPrint uni r then [r]
  else if r.toNat = 7 then [backslash, 'a']
  else if r.toNat = 8 then [backslash, 'b']
  else if r.toNat = 12 then [backslash, 'f']
  else if r.toNat = 10 then [backslash, 'n']
  else if r.toNat = 13 then [backslash, 'r']
  else if r.toNat = 9 then [backslash, 't']
  else if r.toNat = 11 then [backslash, 'v']
  else if r.toNat < 0x20 ∨ r.toNat = 0x7F then [backslash, 'x'] ++ hexDigits 2 r.toNat
  else if r.toNat < 0x10000 then [backslash, 'u'] ++ hexDigits 4 r.toNat
  else [backslash, 'U'] ++ hexDigits 8 r.toNat

/-- The function `strconv.Quote`, the verb `%q` of `fmt`. -/
def Quote (uni : Char → Bool) (s : List Char) : List Char :=
  [dquote] ++ s.flatMap (appendEscapedRune uni) ++ [dquote]

/-- The verb `%t` of `fmt`. -/
def formatBool (b : Bool) : List Char := if b then "true".toList else "false".toList

/-- The string `s` that `writeToFile` of variant B hands to `f.WriteString`:
`fmt.Sprintf("%q,%t,%q\n", url, res, err)` with an error,
`fmt.Sprintf("%q,%t,\n", url, res)` without. -/
def writeToFile (uni : Char → Bool) (url : String) (res : Bool) (err : Option Err) : String :=
  match err with
  | some e =>
    String.mk (Quote uni url.toList ++ [','] ++ formatBool res ++ [','] ++ Quote uni e.toList
      ++ [Char.ofNat 10])
  | none =>
    String.mk (Quote uni url.toList ++ [','] ++ formatBool res ++ [','] ++ [Char.ofNat 10])

/-- A rune that `strconv.Quote` copies as it is: printable, and neither the
double quote nor the backslash. -/
def plainRune (uni : Char → Bool) (c : Char) : Bool :=
  c != dquote && c != backslash && IsPrint uni c

/-! ## Reading one CSV record

The grammar of RFC 4180, which `encoding/csv` writes and reads: fields are
separated by commas and the record ends with a newline; a field that starts
with a double quote runs to the closing double quote, a double quote inside
it being written twice; a double quote anywhere else is an error. -/

/-- Where the reader of a record stands. -/
inductive CsvMode where
  /-- at the start of a field -/
  | fieldStart
  /-- in a field without quotes -/
  | bare
  /-- in a quoted field -/
  | quoted
  /-- after a double quote met in a quoted field -/
  | quoteSeen
  /-- after the newline that ends the record -/
  | ended
deriving DecidableEq, Repr

/-- The reader of one CSV record: `fields` are the fields read so far, `cur`
the runes of the field being read.  `none` is a malformed record. -/
def csvRead (mode : CsvMode) (fields : List String) (cur : List Char) :
    List Char → Option (List String)
  | [] =>
    match mode with
    | .ended => some fields
    | .quoted => none
    | _ => some (fields ++ [String.mk cur])
  | c :: cs =>
    match mode with
    | .fieldStart =>
      if c = dquote then csvRead .quoted fields [] cs
      else if c = ',' then csvRead .fieldStart (fields ++ [""]) [] cs
      else if c = Char.ofNat 10 then csvRead .ended (fields ++ [""]) [] cs
      else csvRead .bare fields [c] cs
    | .bare =>
      if c = dquote then none
      else if c = ',' then csvRead .fieldStart (fields ++ [String.mk cur]) [] cs
      else if c = Char.ofNat 10 then csvRead .ended (fields ++ [String.mk cur]) [] cs
      else csvRead .bare fields (cur ++ [c]) cs
    | .quoted =>
      if c = dquote then csvRead .quoteSeen fields cur cs
      else csvRead .quoted fields (cur ++ [c]) cs
    | .quoteSeen =>
      if c = dquote then csvRead .quoted fields (cur ++ [dquote]) cs
      else if c = ',' then csvRead .fieldStart (fields ++ [String.mk cur]) [] cs
      else if c = Char.ofNat 10 then csvRead .ended (fields ++ [String.mk cur]) [] cs
      else none
    | .ended => none

/-- The fields of the CSV record written as `line`, if it is well formed. -/
def csvDecode (line : String) : Option (List String) := csvRead .fieldStart [] [] line.toList

/-! ## Invariants -/

/-- 1 when the two targets are the same, else 0. -/
def same (u v : String) : Nat := if v = u then 1 else 0

/-- 1 for a goroutine that still holds its slot. -/
def TaskB.active (t : TaskB) : Nat := if t.running then 1 else 0

/-- The values `main` has sent on `sem` that stand for no goroutine: the one
of a goroutine it is about to start, and those of its final loop. -/
def mainHolds : MainB → Nat
  | .spawn _ => 1
  | .fill i => i
  | .finished => maxGo
  | _ => 0

/-- 1 for a goroutine that holds the mutex `mu`. -/
def TaskB.holdsMu (t : TaskB) : Nat :=
  match t.pc with
  | .write _ => 1
  | .unlock => 1
  | _ => 0

/-- 1 when the goroutine is for the target `u` and has not written its row. -/
def TaskB.pending (u : String) (t : TaskB) : Nat :=
  match t.pc with
  | .get => same u t.url
  | .lock row => same u row.url
  | .write row => same u row.url
  | _ => 0

/-- 1 when `main` holds the target `u`, read and not yet given to a goroutine. -/
def mainPending (u : String) : MainB → Nat
  | .acquire v => same u v
  | .spawn v => same u v
  | _ => 0

/-- The reading loop of `main` is over. -/
def mainPastLoop : MainB → Bool
  | .fill _ => true
  | .finished => true
  | _ => false

/-- The invariant of the runs of variant B on `input`. -/
structure InvB (input : List String) (s : StateB) : Prop where
  sem_le : s.sem ≤ maxGo
  sem_eq : s.sem = (s.tasks.map TaskB.active).sum + mainHolds s.main
  fill_le : ∀ i, s.main = .fill i → i ≤ maxGo
  mu_eq : (s.tasks.map TaskB.holdsMu).sum = s.mu.toNat
  rows_nil : mainPastLoop s.main = true → s.rows = []
  acct : ∀ u, input.count u =
    s.rows.count u + mainPending u s.main + (s.tasks.map (TaskB.pending u)).sum
      + (s.out.map Row.url).count u


/-- 1 for a worker that has not called `wg.Done()` yet. -/
def WorkerPc.notDone : WorkerPc → Nat
  | .done => 0
  | _ => 1

/-- The worker has left its loop over `urlsc`. -/
def WorkerPc.left : WorkerPc → Bool
  | .wgDone => true
  | .done => true
  | _ => false

/-- 1 when the worker holds the target `u` and has not sent it on `rc`. -/
def WorkerPc.pending (u : String) : WorkerPc → Nat
  | .get url => same u url
  | .send r => same u r.url
  | _ => 0

/-- The response has an error or a response object, so that `search` does
not dereference nil on it. -/
def HTTPResponse.usable (r : HTTPResponse) : Bool := r.err.isSome || r.response.isSome

/-- The response the worker is sending is usable. -/
def WorkerPc.wf : WorkerPc → Bool
  | .send r => r.usable
  | _ => true

/-- 1 when the outer goroutine of `parallelSearch` holds the target `u`. -/
def DispPc.pending (u : String) : DispPc → Nat
  | .add r => same u r.url
  | .spawn r => same u r.url
  | _ => 0

/-- The response held by the outer goroutine of `parallelSearch` is usable. -/
def DispPc.wf : DispPc → Bool
  | .add r => r.usable
  | .spawn r => r.usable
  | _ => true

/-- 1 between `wg.Add(1)` and the start of the search goroutine. -/
def DispPc.added : DispPc → Nat
  | .spawn _ => 1
  | _ => 0

/-- The outer goroutine of `parallelSearch` has left its loop. -/
def DispPc.pastLoop : DispPc → Bool
  | .spawnCloser => true
  | .done => true
  | _ => false

/-- 1 for a search goroutine that has not called `wg.Done()` yet. -/
def SearchPc.notDone : SearchPc → Nat
  | .done => 0
  | _ => 1

/-- 1 when the search goroutine holds the target `u` and has not sent it. -/
def SearchPc.pending (u : String) : SearchPc → Nat
  | .search r => same u r.url
  | .send sr => same u sr.url
  | _ => 0

/-- The response the search goroutine works on is usable. -/
def SearchPc.wf : SearchPc → Bool
  | .search r => r.usable
  | _ => true

/-- 1 when `writeResults` holds a result for the target `u` not written yet. -/
def WriterPc.pending (u : String) : WriterPc → Nat
  | .write sr => same u sr.url
  | _ => 0

/-- The header record has been written. -/
def WriterPc.started : WriterPc → Bool
  | .create => false
  | .header => false
  | _ => true

/-- The loop of `writeResults` over `src` is over. -/
def WriterPc.pastLoop : WriterPc → Bool
  | .flush => true
  | .done => true
  | _ => false

/-- The goroutine is past its `wg.Wait()`. -/
def CloserPc.passed : CloserPc → Bool
  | .close => true
  | .done => true
  | _ => false

/-- The number of times the target `u` is held by a goroutine of variant A
or still to be read. -/
def pendingA (u : String) (s : StateA) : Nat :=
  s.rows.count u + (s.workers.map (WorkerPc.pending u)).sum + s.disp.pending u
    + (s.searches.map (SearchPc.pending u)).sum + s.writer.pending u

/-- The outcome rows of the output of variant A: the records after the first. -/
def recordedA (s : StateA) : List (List String) := s.out.tail

/-- The invariant of the workers, of `urls` and of the first wait group. -/
structure InvWorkers (ws : List WorkerPc) (closed : Bool) (wg : Nat) : Prop where
  len : ws.length = maxgo
  left_closed : ∀ w ∈ ws, w.left = true → closed = true
  wg_eq : wg = (ws.map WorkerPc.notDone).sum
  wf : ∀ w ∈ ws, w.wf = true

/-- The invariant of the search goroutines and of the second wait group. -/
structure InvSearches (ps : List SearchPc) (wg : Nat) (added : Nat) : Prop where
  wg_eq : wg = (ps.map SearchPc.notDone).sum + added
  wf : ∀ p ∈ ps, p.wf = true

/-- The invariant of the runs of variant A on `input`. -/
structure InvA (input : List String) (s : StateA) : Prop where
  workers : InvWorkers s.workers s.urlsClosed s.wgF
  closed_rows : s.urlsClosed = true → s.rows = []
  closerF_wg : s.closerF.passed = true → s.wgF = 0
  closerF_ne : s.closerF ≠ .idle
  disp_rc : s.disp.pastLoop = true → s.closerF = .done
  closerS_disp : s.closerS = .idle ↔ s.disp ≠ .done
  searches : InvSearches s.searches s.wgS s.disp.added
  closerS_wg : s.closerS.passed = true → s.wgS = 0
  writer_sr : s.writer.pastLoop = true → s.closerS = .done
  disp_wf : s.disp.wf = true
  out_head : s.out.head? = if s.writer.started then some createHeaders else none
  out_recs : ∀ r ∈ recordedA s, ∃ sr, r = createRecord sr
  acct : ∀ u, input.count u = pendingA u s + ((recordedA s).map recordTarget).count u

/-! ## Counting the steps left -/

/-- The steps the worker still takes, with those of the target it holds. -/
def WorkerPc.steps : WorkerPc → Nat
  | .recv => 2
  | .get _ => 11
  | .send _ => 10
  | .afterSend _ => 3
  | .wgDone => 1
  | .done => 0

/-- The steps a goroutine `wg.Wait(); close(ch)` still takes. -/
def CloserPc.steps : CloserPc → Nat
  | .idle => 2
  | .wait => 2
  | .close => 1
  | .done => 0

/-- The steps the outer goroutine of `parallelSearch` still takes, with those
of the target it holds. -/
def DispPc.steps : DispPc → Nat
  | .recv => 2
  | .add _ => 8
  | .spawn _ => 7
  | .spawnCloser => 1
  | .done => 0

/-- The steps a search goroutine still takes, with the write of its result. -/
def SearchPc.steps : SearchPc → Nat
  | .search _ => 4
  | .send _ => 3
  | .wgDone => 1
  | .done => 0

/-- The steps `writeResults` still takes, apart from the writes of the
results it has not received. -/
def WriterPc.steps : WriterPc → Nat
  | .create => 4
  | .header => 3
  | .recv => 2
  | .write _ => 3
  | .flush => 1
  | .done => 0

/-- The number of steps left in a run of variant A: ten for each target not
read yet, one for the close of `urls`, and the steps of each goroutine. -/
def stepsLeftA (s : StateA) : Nat :=
  10 * s.rows.length + (if s.urlsClosed then 0 else 1) + (s.workers.map WorkerPc.steps).sum
    + s.closerF.steps + s.disp.steps + (s.searches.map SearchPc.steps).sum + s.closerS.steps
    + s.writer.steps

/-- The steps a goroutine `fetchAndSearch` still takes. -/
def PcB.steps : PcB → Nat
  | .get => 5
  | .lock _ => 4
  | .write _ => 3
  | .unlock => 2
  | .release => 1
  | .done => 0

/-- The steps `main` of variant B still takes, apart from those for the
records not read yet. -/
def MainB.steps : MainB → Nat
  | .read => maxGo + 2
  | .acquire _ => maxGo + 9
  | .spawn _ => maxGo + 8
  | .fill i => maxGo - i + 1
  | .finished => 0

/-- The number of steps left in a run of variant B. -/
def stepsLeftB (s : StateB) : Nat :=
  8 * s.rows.length + s.main.steps + (s.tasks.map fun t => t.pc.steps).sum

/-! ## Concrete runs -/

/-- Whether the bytes `pat` stand at the head of the bytes. -/
def startsWithBytes : Bytes → Bytes → Bool
  | [], _ => true
  | _ :: _, [] => false
  | p :: ps, c :: cs => p == c && startsWithBytes ps cs

/-- The `Match` method of the regular expression compiled from a search term
without metacharacters: the bytes of the term occur somewhere. -/
def literalRegexp (pat : Bytes) : Regexp
  | [] => startsWithBytes pat []
  | c :: cs => startsWithBytes pat (c :: cs) || literalRegexp pat cs

/-- The bytes of `Treasure`, the default search term. -/
def treasure : Bytes := [84, 114, 101, 97, 115, 117, 114, 101]

/-- The compiled default search term. -/
def treasureRegexp : Regexp := literalRegexp treasure

/-- A body that reads in full as `Treasure Island`. -/
def islandBody : Body :=
  { data := treasure ++ [32, 73, 115, 108, 97, 110, 100], readErr := none }

/-- A body that reads in full as `Island`. -/
def plainBody : Body := { data := [73, 115, 108, 97, 110, 100], readErr := none }

/-- Three targets. -/
def input3 : List String := ["a.test", "b.test", "c.test"]

/-- The answer to the GET of `a.test`: a page with the term. -/
def getA : GetResult := .ok { StatusCode := 200, Body := islandBody }

/-- The answer to the GET of `b.test`: a timeout. -/
def getB : GetResult := .fail none "timeout"

/-- The answer to the GET of `c.test`: a page without the term. -/
def getC : GetResult := .ok { StatusCode := 200, Body := plainBody }

/-- The steps that take the target number `k` through worker 0 of variant A,
`parallelSearch`, its search goroutine and `writeResults`. -/
def oneTargetA (k : Nat) (g : GetResult) : List ActA :=
  [.worker 0 g, .worker 0 g, .handOver 0, .worker 0 g, .disp, .disp, .search k, .deliver k,
    .writer, .search k]

/-- The steps by which the workers of variant A leave their loop and return. -/
def workersReturnA : List ActA :=
  (List.range maxgo).flatMap fun i => [.worker i getB, .worker i getB]

/-- A complete run of variant A on `input3`. -/
def actsA3 : List ActA :=
  [.writer, .writer] ++ oneTargetA 0 getA ++ oneTargetA 1 getB ++ oneTargetA 2 getC
    ++ [.reader] ++ workersReturnA
    ++ [.closerF, .closerF, .disp, .disp, .closerS, .closerS, .writer, .writer]

/-- The state at the end of the run `actsA3`. -/
def finalA3 : StateA := (runA treasureRegexp (initA input3) actsA3).getD (initA input3)

/-- The start of the run `actsA3`: the header is written and worker 0 is
sending the response for `a.test`. -/
def actsA3mid : List ActA := [.writer, .writer, .worker 0 getA, .worker 0 getA]

/-- The state at the end of `actsA3mid`. -/
def midA3 : StateA := (runA treasureRegexp (initA input3) actsA3mid).getD (initA input3)

/-- The steps of one goroutine `fetchAndSearch` of variant B, from its GET to
the release of its slot. -/
def oneTaskB (j : Nat) (g : GetResult) : List ActB :=
  [.task j g, .task j g, .task j g, .task j g, .task j g]

/-- A complete run of variant B on `input3`: the three goroutines are
started, the last one finishes first, then `main` fills the semaphore. -/
def actsB3 : List ActB :=
  [.main, .main, .main, .main, .main, .main, .main, .main, .main]
    ++ oneTaskB 2 getC ++ oneTaskB 0 getA ++ oneTaskB 1 getB
    ++ List.replicate (maxGo + 2) .main

/-- The state at the end of the run `actsB3`. -/
def finalB3 : StateB := (runB treasureRegexp (initB input3) actsB3).getD (initB input3)

/-- The start of the run `actsB3`: the three goroutines are started and the
last one holds the mutex. -/
def actsB3mid : List ActB :=
  [.main, .main, .main, .main, .main, .main, .main, .main, .main,
    .task 2 getC, .task 0 getA, .task 2 getC]

/-- The state at the end of `actsB3mid`. -/
def midB3 : StateB := (runB treasureRegexp (initB input3) actsB3mid).getD (initB input3)

/-- Twenty-one targets. -/
def input21 : List String :=
  ["t00.test", "t01.test", "t02.test", "t03.test", "t04.test", "t05.test", "t06.test",
    "t07.test", "t08.test", "t09.test", "t10.test", "t11.test", "t12.test", "t13.test",
    "t14.test", "t15.test", "t16.test", "t17.test", "t18.test", "t19.test", "t20.test"]

/-- A run of variant A on `input21`: each of the twenty workers fetches one
target and hands its response over, a search goroutine is started for each
response, then worker 0 fetches the last target; `writeResults` has not
moved. -/
def acts21 : List ActA :=
  ((List.range maxgo).flatMap fun i => [.worker i getA, .worker i getA, .handOver i, .disp, .disp])
    ++ [.worker 0 getA, .worker 0 getA, .worker 0 getA]

/-- The state at the end of the run `acts21`. -/
def state21 : StateA := (runA treasureRegexp (initA input21) acts21).getD (initA input21)

/-- A complete run of variant B on the empty input. -/
def actsB0 : List ActB := List.replicate (maxGo + 2) .main

/-- A complete run of variant A on the empty input. -/
def actsA0 : List ActA :=
  [.writer, .writer, .reader] ++ workersReturnA
    ++ [.closerF, .closerF, .disp, .disp, .closerS, .closerS, .writer, .writer]

/-- The text of an error of `client.Get`, which quotes the url. -/
def getErrText : String :=
  "Get " ++ String.singleton dquote ++ "http://a.test" ++ String.singleton dquote ++ ": EOF"

/-! ## Lists -/

theorem sum_map_set {α : Type} (f : α → Nat) (l : List α) (i : Nat) (x y : α)
    (h : l[i]? = some x) :
    ((l.set i y).map f).sum + f x = (l.map f).sum + f y := by
  induction l generalizing i with
  | nil => simp at h
  | cons a l ih =>
    cases i with
    | zero => simp at h; subst h; simp only [List.set, List.map, List.sum_cons]; omega
    | succ i =>
      simp at h
      have := ih i h
      simp only [List.set, List.map, List.sum_cons]
      omega

theorem le_sum_of_get {α : Type} (f : α → Nat) (l : List α) (i : Nat) (x : α)
    (h : l[i]? = some x) : f x ≤ (l.map f).sum := by
  have := sum_map_set f l i x x h
  have h2 : l.set i x = l := by
    apply List.ext_getElem?
    intro k
    by_cases hk : i = k
    · subst hk
      rw [List.getElem?_set]
      simp only [↓reduceIte]
      split
      · exact h.symm
      · rename_i hlt
        rw [List.getElem?_eq_none (by omega)] at h
        simp at h
    · rw [List.getElem?_set_ne hk]
  induction l generalizing i with
  | nil => simp at h
  | cons a l ih =>
    cases i with
    | zero =>
      simp at h; subst h
      simp only [List.map, List.sum_cons]; omega
    | succ i =>
      simp only [List.getElem?_cons_succ] at h
      have := ih i h (sum_map_set f l i x x h)
      simp only [List.map, List.sum_cons]
      have h3 : l.set i x = l := by
        simp only [List.set, List.cons.injEq, true_and] at h2
        exact h2
      have := this h3
      omega

theorem forall_mem_set {α : Type} (P : α → Prop) (l : List α) (i : Nat) (y : α)
    (h : ∀ a ∈ l, P a) (hy : P y) :
    ∀ a ∈ l.set i y, P a := by
  intro a ha
  rcases List.mem_or_eq_of_mem_set ha with h1 | h1
  · exact h a h1
  · exact h1 ▸ hy

theorem exists_pos_of_sum_pos {α : Type} (f : α → Nat) (l : List α) (h : 0 < (l.map f).sum) :
    ∃ (j : Nat) (x : α), l[j]? = some x ∧ 0 < f x := by
  induction l with
  | nil => simp at h
  | cons a l ih =>
    simp only [List.map, List.sum_cons] at h
    by_cases ha : 0 < f a
    · exact ⟨0, a, by simp, ha⟩
    · obtain ⟨j, x, hj, hx⟩ := ih (by omega)
      exact ⟨j + 1, x, by simpa using hj, hx⟩

theorem forall_zero_of_sum_zero {α : Type} (f : α → Nat) (l : List α) (h : (l.map f).sum = 0) :
    ∀ a ∈ l, f a = 0 := by
  induction l with
  | nil => simp
  | cons a l ih =>
    simp only [List.map, List.sum_cons] at h
    intro b hb
    rcases List.mem_cons.1 hb with h1 | h1
    · subst h1; omega
    · exact ih (by omega) b h1

theorem sum_map_le {α : Type} (f g : α → Nat) (l : List α) (h : ∀ a, f a ≤ g a) :
    (l.map f).sum ≤ (l.map g).sum := by
  induction l with
  | nil => simp
  | cons a l ih =>
    simp only [List.map, List.sum_cons]
    have := h a
    omega

theorem length_filter_eq_sum {α : Type} (p : α → Bool) (l : List α) :
    (l.filter p).length = (l.map (fun a => if p a then 1 else 0)).sum := by
  induction l with
  | nil => rfl
  | cons a l ih =>
    by_cases h : p a
    · simp [List.filter, h, ih]; omega
    · simp [List.filter, h, ih]

theorem count_cons_same (u v : String) (l : List String) :
    (v :: l).count u = l.count u + same u v := by
  simp [List.count_cons, same]

theorem count_append_same (u v : String) (l : List String) :
    (l ++ [v]).count u = l.count u + same u v := by
  simp [List.count_append, List.count_cons, same]


/-! ## Variant B: the invariant holds -/

theorem invB_init (input : List String) : InvB input (initB input) := by
  constructor <;> simp [initB, mainHolds, mainPending, mainPastLoop, maxGo]

theorem fetchAndSearch_url (url : String) (g : GetResult) (re : Regexp) :
    (fetchAndSearch url g re).1.url = url := by
  unfold fetchAndSearch
  cases g with
  | fail r e => rfl
  | ok resp =>
    simp only [ReadAll]
    cases resp.Body.readErr <;> rfl

theorem invB_main {input : List String} {s s' : StateB} (h : InvB input s)
    (hs : stepMainB s = some s') : InvB input s' := by
  have h2 := h.sem_eq
  have h5 := h.rows_nil
  have hle := h.sem_le
  unfold stepMainB at hs
  split at hs
  · rename_i hm
    rw [hm] at h2 h5
    split at hs
    · rename_i hrows
      simp only [Option.some.injEq] at hs; subst hs
      exact { h with
        sem_eq := h2
        fill_le := fun i hi => by
          simp only [MainB.fill.injEq] at hi
          omega
        rows_nil := fun _ => hrows
        acct := fun u => by
          have a := h.acct u
          simp only [hm, mainPending] at a ⊢
          exact a }
    · rename_i url rest hrows
      simp only [Option.some.injEq] at hs; subst hs
      exact { h with
        sem_eq := h2
        fill_le := fun i hi => by simp at hi
        rows_nil := fun hp => by simp [mainPastLoop] at hp
        acct := fun u => by
          have a := h.acct u
          simp only [hm, hrows, mainPending, count_cons_same] at a ⊢
          omega }
  · rename_i url hm
    rw [hm] at h2 h5
    split at hs
    · rename_i hlt
      simp only [Option.some.injEq] at hs; subst hs
      exact { h with
        sem_le := by simp only [maxGo] at hlt ⊢; omega
        sem_eq := by simp only [mainHolds] at h2 ⊢; omega
        fill_le := fun i hi => by simp at hi
        rows_nil := fun hp => by simp [mainPastLoop] at hp
        acct := fun u => by
          have a := h.acct u
          simp only [hm, mainPending] at a ⊢
          exact a }
    · simp at hs
  · rename_i url hm
    rw [hm] at h2 h5
    simp only [Option.some.injEq] at hs; subst hs
    exact { h with
      sem_eq := by
        simp only [mainHolds, List.map_append, List.sum_append, List.map_cons, List.map_nil,
          List.sum_cons, List.sum_nil, TaskB.active, TaskB.running] at h2 ⊢
        simp only [if_true]
        omega
      fill_le := fun i hi => by simp at hi
      mu_eq := by
        have h4 := h.mu_eq
        simp only [List.map_append, List.sum_append, List.map_cons, List.map_nil,
          List.sum_cons, List.sum_nil, TaskB.holdsMu] at h4 ⊢
        omega
      rows_nil := fun hp => by simp [mainPastLoop] at hp
      acct := fun u => by
        have a := h.acct u
        simp only [hm, mainPending, List.map_append, List.sum_append, List.map_cons,
          List.map_nil, List.sum_cons, List.sum_nil, TaskB.pending] at a ⊢
        omega }
  · rename_i i hm
    rw [hm] at h2 h5
    have hi20 := h.fill_le i hm
    split at hs
    · rename_i hlt
      split at hs
      · rename_i hsem
        simp only [Option.some.injEq] at hs; subst hs
        exact { h with
          sem_le := by simp only [maxGo] at hsem ⊢; omega
          sem_eq := by simp only [mainHolds] at h2 ⊢; omega
          fill_le := fun k hk => by
            simp only [MainB.fill.injEq] at hk
            omega
          rows_nil := fun _ => h5 rfl
          acct := fun u => by
            have a := h.acct u
            simp only [hm, mainPending] at a ⊢
            exact a }
      · simp at hs
    · rename_i hge
      simp only [Option.some.injEq] at hs; subst hs
      exact { h with
        sem_eq := by simp only [mainHolds] at h2 ⊢; omega
        fill_le := fun k hk => by simp at hk
        rows_nil := fun _ => h5 rfl
        acct := fun u => by
          have a := h.acct u
          simp only [hm, mainPending] at a ⊢
          exact a }
  · simp at hs

theorem invB_set {input : List String} {s : StateB} {j : Nat} {t : TaskB}
    (h : InvB input s) (ht : s.tasks[j]? = some t) (t' : TaskB) (sem' : Nat) (mu' : Bool)
    (out' : List Row) (hle : sem' ≤ s.sem)
    (hsem : sem' + t.active = s.sem + t'.active)
    (hmu : mu'.toNat + t.holdsMu = s.mu.toNat + t'.holdsMu)
    (hout : ∀ u, (out'.map Row.url).count u + t'.pending u
      = (s.out.map Row.url).count u + t.pending u) :
    InvB input { s with sem := sem', mu := mu', out := out', tasks := s.tasks.set j t' } := by
  obtain ⟨h1, h2, h3, h4, h5, h6⟩ := h
  have e1 := sum_map_set TaskB.active s.tasks j t t' ht
  have e2 := sum_map_set TaskB.holdsMu s.tasks j t t' ht
  refine ⟨?_, ?_, h3, ?_, h5, fun u => ?_⟩
  · show sem' ≤ maxGo
    omega
  · show sem' = ((s.tasks.set j t').map TaskB.active).sum + mainHolds s.main
    omega
  · show ((s.tasks.set j t').map TaskB.holdsMu).sum = mu'.toNat
    omega
  · show input.count u = s.rows.count u + mainPending u s.main
      + ((s.tasks.set j t').map (TaskB.pending u)).sum + (out'.map Row.url).count u
    have e3 := sum_map_set (TaskB.pending u) s.tasks j t t' ht
    have := h6 u
    have := hout u
    omega

theorem invB_task {input : List String} {re : Regexp} {s s' : StateB} {j : Nat} {g : GetResult}
    (h : InvB input s) (hs : stepFetchAndSearch re s j g = some s') : InvB input s' := by
  unfold stepFetchAndSearch at hs
  split at hs
  · simp at hs
  · rename_i t ht
    have hle := Bool.toNat_le s.mu
    have hmu1 := le_sum_of_get TaskB.holdsMu s.tasks j t ht
    have hact := le_sum_of_get TaskB.active s.tasks j t ht
    rw [h.mu_eq] at hmu1
    split at hs
    · rename_i hpc
      simp only [Option.some.injEq] at hs; subst hs
      refine invB_set h ht _ s.sem s.mu s.out (le_refl _) ?_ ?_ (fun u => ?_) <;>
        simp [TaskB.active, TaskB.running, TaskB.holdsMu, TaskB.pending, hpc, fetchAndSearch_url]
    · rename_i row hpc
      split at hs
      · simp at hs
      · rename_i hmu
        simp only [Option.some.injEq] at hs; subst hs
        refine invB_set h ht _ s.sem true s.out (le_refl _) ?_ ?_ (fun u => ?_) <;>
          simp [TaskB.active, TaskB.running, TaskB.holdsMu, TaskB.pending, hpc, hmu]
    · rename_i row hpc
      simp only [Option.some.injEq] at hs; subst hs
      refine invB_set h ht _ s.sem s.mu (s.out ++ [row]) (le_refl _) ?_ ?_ (fun u => ?_) <;>
        simp [TaskB.active, TaskB.running, TaskB.holdsMu, TaskB.pending, hpc, count_append_same]
      simp [same, List.count_cons]
    · rename_i hpc
      simp only [Option.some.injEq] at hs; subst hs
      have hm : s.mu = true := by
        cases hmu : s.mu
        · simp [TaskB.holdsMu, hpc, hmu] at hmu1
        · rfl
      refine invB_set h ht _ s.sem false s.out (le_refl _) ?_ ?_ (fun u => ?_) <;>
        simp [TaskB.active, TaskB.running, TaskB.holdsMu, TaskB.pending, hpc, hm]
    · rename_i hpc
      split at hs
      · rename_i hpos
        simp only [Option.some.injEq] at hs; subst hs
        refine invB_set h ht _ (s.sem - 1) s.mu s.out (by omega) ?_ ?_ (fun u => ?_) <;>
          simp [TaskB.active, TaskB.running, TaskB.holdsMu, TaskB.pending, hpc]
        omega
      · simp at hs
    · simp at hs

theorem invB_step {input : List String} {re : Regexp} {s s' : StateB} {a : ActB}
    (h : InvB input s) (hs : stepB re s a = some s') : InvB input s' := by
  cases a with
  | main => exact invB_main h hs
  | task j g => exact invB_task h hs

theorem invB_run {input : List String} {re : Regexp} (acts : List ActB) {s s' : StateB}
    (h : InvB input s) (hs : runB re s acts = some s') : InvB input s' := by
  induction acts generalizing s with
  | nil =>
    simp only [runB, Option.some.injEq] at hs
    exact hs ▸ h
  | cons a as ih =>
    simp only [runB] at hs
    split at hs
    · simp at hs
    · rename_i s1 h1
      exact ih (invB_step h h1) hs

theorem invB_reachable {input : List String} {re : Regexp} {s : StateB}
    (h : ReachableB re input s) : InvB input s := by
  obtain ⟨acts, ha⟩ := h
  exact invB_run acts (invB_init input) ha

theorem runningB_eq (s : StateB) : runningB s = (s.tasks.map TaskB.active).sum := by
  unfold runningB
  rw [length_filter_eq_sum]
  rfl

theorem pending_le_active (u : String) (t : TaskB) : t.pending u ≤ t.active := by
  unfold TaskB.pending TaskB.active TaskB.running same
  cases t.pc <;> simp <;> split <;> omega

theorem exactly_once_B (re : Regexp) (input : List String) (s : StateB)
    (h : ReachableB re input s) (hf : s.main = .finished) :
    (s.out.map Row.url).Perm input := by
  have hi := invB_reachable h
  rw [List.perm_iff_count]
  intro u
  have h1 := hi.sem_le
  have h2 := hi.sem_eq
  have h5 := hi.rows_nil
  have h6 := hi.acct u
  have h7 := sum_map_le (TaskB.pending u) TaskB.active s.tasks (pending_le_active u)
  rw [hf] at h2 h5 h6
  simp only [mainHolds, mainPastLoop, mainPending, forall_const] at h2 h5 h6
  rw [h5] at h6
  simp at h6
  omega

theorem progress_B (re : Regexp) (input : List String) (s : StateB)
    (h : ReachableB re input s) (hf : s.main ≠ .finished) :
    ∃ a, (stepB re s a).isSome = true := by
  have hi := invB_reachable h
  have key : 0 < (s.tasks.map TaskB.active).sum → ∃ a, (stepB re s a).isSome = true := by
    intro hpos
    obtain ⟨j, t, ht, hta⟩ := exists_pos_of_sum_pos _ _ hpos
    have hsem : 0 < s.sem := by have := hi.sem_eq; omega
    cases hpc : t.pc with
    | get => exact ⟨.task j (.fail none ""), by simp [stepB, stepFetchAndSearch, ht, hpc]⟩
    | lock row =>
      cases hmu : s.mu with
      | false =>
        exact ⟨.task j (.fail none ""), by simp [stepB, stepFetchAndSearch, ht, hpc, hmu]⟩
      | true =>
        have h4 := hi.mu_eq
        rw [hmu] at h4
        obtain ⟨k, t2, ht2, hk⟩ := exists_pos_of_sum_pos TaskB.holdsMu s.tasks (by simp [h4])
        refine ⟨.task k (.fail none ""), ?_⟩
        unfold TaskB.holdsMu at hk
        cases hpc2 : t2.pc <;> simp [hpc2] at hk <;> simp [stepB, stepFetchAndSearch, ht2, hpc2]
    | write row => exact ⟨.task j (.fail none ""), by simp [stepB, stepFetchAndSearch, ht, hpc]⟩
    | unlock => exact ⟨.task j (.fail none ""), by simp [stepB, stepFetchAndSearch, ht, hpc]⟩
    | release =>
      exact ⟨.task j (.fail none ""), by simp [stepB, stepFetchAndSearch, ht, hpc, hsem]⟩
    | done => simp [TaskB.active, TaskB.running, hpc] at hta
  have h1 := hi.sem_le
  have h2 := hi.sem_eq
  cases hm : s.main with
  | read =>
    refine ⟨.main, ?_⟩
    simp only [stepB, stepMainB, hm]
    cases s.rows <;> simp
  | acquire url =>
    by_cases hlt : s.sem < maxGo
    · exact ⟨.main, by simp [stepB, stepMainB, hm, hlt]⟩
    · apply key
      simp only [hm, mainHolds, maxGo] at h2 hlt
      omega
  | spawn url => exact ⟨.main, by simp [stepB, stepMainB, hm]⟩
  | fill i =>
    by_cases hi2 : i < maxGo
    · by_cases hlt : s.sem < maxGo
      · exact ⟨.main, by simp [stepB, stepMainB, hm, hlt, hi2]⟩
      · apply key
        simp only [hm, mainHolds, maxGo] at h2 hlt hi2
        omega
    · exact ⟨.main, by simp [stepB, stepMainB, hm, hi2]⟩
  | finished => exact absurd hm hf


/-! ## Variant A: the invariant holds -/

theorem invWorkers_set {ws : List WorkerPc} {closed : Bool} {wg : Nat} {i : Nat} {w : WorkerPc}
    (h : InvWorkers ws closed wg) (hw : ws[i]? = some w) (w' : WorkerPc) (closed' : Bool)
    (wg' : Nat) (hc : closed = true → closed' = true) (hl : w'.left = true → closed' = true)
    (hwf : w'.wf = true) (hwg : wg' + w.notDone = wg + w'.notDone) :
    InvWorkers (ws.set i w') closed' wg' := by
  refine ⟨by simp [h.len], ?_, ?_, ?_⟩
  · exact forall_mem_set _ _ _ _ (fun a ha hla => hc (h.left_closed a ha hla)) hl
  · have := sum_map_set WorkerPc.notDone ws i w w' hw
    have := h.wg_eq
    omega
  · exact forall_mem_set _ _ _ _ h.wf hwf

theorem invSearches_set {ps : List SearchPc} {wg added : Nat} {j : Nat} {p : SearchPc}
    (h : InvSearches ps wg added) (hp : ps[j]? = some p) (p' : SearchPc) (wg' : Nat)
    (hwf : p'.wf = true) (hwg : wg' + p.notDone = wg + p'.notDone) :
    InvSearches (ps.set j p') wg' added := by
  refine ⟨?_, ?_⟩
  · have := sum_map_set SearchPc.notDone ps j p p' hp
    have := h.wg_eq
    omega
  · exact forall_mem_set _ _ _ _ h.wf hwf

theorem invA_init (input : List String) : InvA input (initA input) := by
  refine ⟨⟨?_, ?_, ?_, ?_⟩, ?_, ?_, ?_, ?_, ?_, ⟨?_, ?_⟩, ?_, ?_, ?_, ?_, ?_, ?_⟩ <;>
    simp [initA, maxgo, CloserPc.passed, DispPc.pastLoop, DispPc.added, WriterPc.pastLoop,
      DispPc.wf, WriterPc.started, recordedA, pendingA, DispPc.pending, WriterPc.pending,
      WorkerPc.left, WorkerPc.wf, WorkerPc.notDone, WorkerPc.pending]

theorem invA_reader {input : List String} {s s' : StateA} (h : InvA input s)
    (hs : stepReadURLs s = some s') : InvA input s' := by
  unfold stepReadURLs at hs
  split at hs
  · rename_i hrows
    split at hs
    · simp at hs
    · simp only [Option.some.injEq] at hs; subst hs
      exact { h with
        workers := ⟨h.workers.len, fun _ _ _ => rfl, h.workers.wg_eq, h.workers.wf⟩
        closed_rows := fun _ => hrows }
  · simp at hs

theorem invA_worker {input : List String} {s s' : StateA} {i : Nat} {g : GetResult}
    (h : InvA input s) (hs : stepFetch s i g = some s') : InvA input s' := by
  unfold stepFetch at hs
  split at hs
  · simp at hs
  · rename_i w hw
    have hsum := fun u w' => sum_map_set (WorkerPc.pending u) s.workers i w w' hw
    cases w with
    | recv =>
      simp only at hs
      split at hs
      · rename_i url rest hrows
        simp only [Option.some.injEq] at hs; subst hs
        exact { h with
          workers := invWorkers_set h.workers hw _ _ _ id (by simp [WorkerPc.left])
            (by simp [WorkerPc.wf]) (by simp [WorkerPc.notDone])
          closed_rows := fun hc => by
            have := h.closed_rows hc
            simp [hrows] at this
          acct := fun u => by
            have a := h.acct u
            have e := hsum u (.get url)
            simp only [pendingA, recordedA, hrows, count_cons_same, WorkerPc.pending] at a e ⊢
            omega }
      · rename_i hrows
        split at hs
        · rename_i hc
          simp only [Option.some.injEq] at hs; subst hs
          exact { h with
            workers := invWorkers_set h.workers hw _ _ _ id (fun _ => hc)
              (by simp [WorkerPc.wf]) (by simp [WorkerPc.notDone])
            acct := fun u => by
              have a := h.acct u
              have e := hsum u .wgDone
              simp only [pendingA, recordedA, WorkerPc.pending] at a e ⊢
              omega }
        · simp at hs
    | get url =>
      simp only [Option.some.injEq] at hs; subst hs
      exact { h with
        workers := invWorkers_set h.workers hw _ _ _ id (by simp [WorkerPc.left])
          (by cases g <;> simp [WorkerPc.wf, HTTPResponse.usable, fetchResponse, GetResult.err,
            GetResult.resp])
          (by simp [WorkerPc.notDone])
        acct := fun u => by
          have a := h.acct u
          have e := hsum u (.send (fetchResponse url g))
          simp only [pendingA, recordedA, WorkerPc.pending, fetchResponse] at a e ⊢
          omega }
    | send r => simp at hs
    | afterSend r =>
      simp only [Option.some.injEq] at hs; subst hs
      exact { h with
        workers := invWorkers_set h.workers hw _ _ _ id (by simp [WorkerPc.left])
          (by simp [WorkerPc.wf]) (by simp [WorkerPc.notDone])
        acct := fun u => by
          have a := h.acct u
          have e := hsum u .recv
          simp only [pendingA, recordedA, WorkerPc.pending] at a e ⊢
          omega }
    | wgDone =>
      simp only at hs
      split at hs
      · rename_i hpos
        simp only [Option.some.injEq] at hs; subst hs
        have hleft := h.workers.left_closed _ (List.getElem?_mem hw) rfl
        exact { h with
          workers := invWorkers_set h.workers hw _ _ _ id (fun _ => hleft)
            (by simp [WorkerPc.wf]) (by simp [WorkerPc.notDone]; omega)
          closerF_wg := fun hp => by
            have := h.closerF_wg hp
            omega
          acct := fun u => by
            have a := h.acct u
            have e := hsum u .done
            simp only [pendingA, recordedA, WorkerPc.pending] at a e ⊢
            omega }
      · simp at hs
    | done => simp at hs

theorem invA_handOver {input : List String} {s s' : StateA} {i : Nat}
    (h : InvA input s) (hs : stepHandOver s i = some s') : InvA input s' := by
  unfold stepHandOver at hs
  split at hs
  · rename_i r hw hd
    split at hs
    · simp at hs
    · simp only [Option.some.injEq] at hs; subst hs
      have hwf := h.workers.wf _ (List.getElem?_mem hw)
      have hcs := h.closerS_disp
      have hse := h.searches
      rw [hd] at hcs hse
      exact { h with
        workers := invWorkers_set h.workers hw _ _ _ id (by simp [WorkerPc.left])
          (by simp [WorkerPc.wf]) (by simp [WorkerPc.notDone])
        disp_rc := by simp [DispPc.pastLoop]
        closerS_disp := by simpa using hcs
        searches := hse
        disp_wf := hwf
        acct := fun u => by
          have a := h.acct u
          have e := sum_map_set (WorkerPc.pending u) s.workers i _ (.afterSend r) hw
          simp only [pendingA, recordedA, WorkerPc.pending, DispPc.pending, hd] at a e ⊢
          omega }
  · simp at hs

theorem invA_closerF {input : List String} {s : StateA} {pc : CloserPc}
    (h : InvA input s) (hs : stepCloser s.closerF s.wgF = some pc) :
    InvA input { s with closerF := pc } := by
  unfold stepCloser at hs
  have hrc := h.disp_rc
  split at hs
  · simp at hs
  · rename_i hc
    split at hs
    · rename_i hz
      simp only [Option.some.injEq] at hs; subst hs
      exact { h with
        closerF_wg := fun _ => hz
        closerF_ne := by simp
        disp_rc := fun hp => by simp [hrc hp] at hc }
    · simp at hs
  · rename_i hc
    simp only [Option.some.injEq] at hs; subst hs
    exact { h with
      closerF_wg := fun _ => h.closerF_wg (by simp [hc, CloserPc.passed])
      closerF_ne := by simp
      disp_rc := fun _ => rfl }
  · simp at hs

theorem invA_closerS {input : List String} {s : StateA} {pc : CloserPc}
    (h : InvA input s) (hs : stepCloser s.closerS s.wgS = some pc) :
    InvA input { s with closerS := pc } := by
  unfold stepCloser at hs
  have hsr := h.writer_sr
  have hcd := h.closerS_disp
  split at hs
  · simp at hs
  · rename_i hc
    split at hs
    · rename_i hz
      simp only [Option.some.injEq] at hs; subst hs
      exact { h with
        closerS_disp := by simpa [hc] using hcd
        closerS_wg := fun _ => hz
        writer_sr := fun hp => by simp [hsr hp] at hc }
    · simp at hs
  · rename_i hc
    simp only [Option.some.injEq] at hs; subst hs
    exact { h with
      closerS_disp := by simpa [hc] using hcd
      closerS_wg := fun _ => h.closerS_wg (by simp [hc, CloserPc.passed])
      writer_sr := fun _ => rfl }
  · simp at hs

theorem invA_disp {input : List String} {s s' : StateA}
    (h : InvA input s) (hs : stepParallelSearch s = some s') : InvA input s' := by
  unfold stepParallelSearch at hs
  have hcd := h.closerS_disp
  have hse := h.searches
  have hwf := h.disp_wf
  split at hs
  · rename_i hd
    rw [hd] at hcd hse
    split at hs
    · rename_i hc
      simp only [Option.some.injEq] at hs; subst hs
      exact { h with
        disp_rc := fun _ => hc
        closerS_disp := by simpa using hcd
        searches := hse
        disp_wf := rfl
        acct := fun u => by
          have a := h.acct u
          simp only [pendingA, recordedA, DispPc.pending, hd] at a ⊢
          omega }
    · simp at hs
  · rename_i r hd
    rw [hd] at hcd hse hwf
    simp only [Option.some.injEq] at hs; subst hs
    have hidle : s.closerS = .idle := hcd.2 (by simp)
    exact { h with
      disp_rc := by simp [DispPc.pastLoop]
      closerS_disp := by simpa using hcd
      searches := ⟨by have := hse.wg_eq; simp only [DispPc.added] at this ⊢; omega, hse.wf⟩
      closerS_wg := by simp [hidle, CloserPc.passed]
      disp_wf := hwf
      acct := fun u => by
        have a := h.acct u
        simp only [pendingA, recordedA, DispPc.pending, hd] at a ⊢
        omega }
  · rename_i r hd
    rw [hd] at hcd hse hwf
    simp only [Option.some.injEq] at hs; subst hs
    exact { h with
      disp_rc := by simp [DispPc.pastLoop]
      closerS_disp := by simpa using hcd
      searches := ⟨by
          have := hse.wg_eq
          simp only [DispPc.added, List.map_append, List.sum_append, List.map_cons, List.map_nil,
            List.sum_cons, List.sum_nil, SearchPc.notDone] at this ⊢
          omega, by
          intro p hp
          rcases List.mem_append.1 hp with h1 | h1
          · exact hse.wf p h1
          · simp only [List.mem_singleton] at h1
            subst h1
            exact hwf⟩
      disp_wf := rfl
      acct := fun u => by
        have a := h.acct u
        simp only [pendingA, recordedA, DispPc.pending, hd, List.map_append, List.sum_append,
          List.map_cons, List.map_nil, List.sum_cons, List.sum_nil, SearchPc.pending] at a ⊢
        omega }
  · rename_i hd
    rw [hd] at hcd hse
    simp only [Option.some.injEq] at hs; subst hs
    have hidle : s.closerS = .idle := hcd.2 (by simp)
    have hrc := h.disp_rc
    have hsr := h.writer_sr
    exact { h with
      disp_rc := fun _ => hrc (by simp [hd, DispPc.pastLoop])
      closerS_disp := by simp
      searches := hse
      closerS_wg := by simp [CloserPc.passed]
      writer_sr := fun hp => by simp [hsr hp] at hidle
      disp_wf := rfl
      acct := fun u => by
        have a := h.acct u
        simp only [pendingA, recordedA, DispPc.pending, hd] at a ⊢
        omega }
  · simp at hs

theorem search_url {r : HTTPResponse} {regex : Regexp} {sr : SearchResult} {ops : List BodyOp}
    (h : search r regex = some (sr, ops)) : sr.url = r.url := by
  unfold search at h
  split at h
  · simp only [Option.some.injEq, Prod.mk.injEq] at h
    rw [← h.1]
  · split at h
    · simp at h
    · split at h <;> simp only [Option.some.injEq, Prod.mk.injEq] at h <;> rw [← h.1]

theorem invA_search {input : List String} {regex : Regexp} {s s' : StateA} {j : Nat}
    (h : InvA input s) (hs : stepSearch regex s j = some s') : InvA input s' := by
  unfold stepSearch at hs
  split at hs
  · simp at hs
  · rename_i p hp
    have hsum := fun u p' => sum_map_set (SearchPc.pending u) s.searches j p p' hp
    cases p with
    | search r =>
      simp only at hs
      split at hs
      · rename_i sr ops hsr
        simp only [Option.some.injEq] at hs; subst hs
        have hurl := search_url hsr
        exact { h with
          searches := invSearches_set h.searches hp _ _ (by simp [SearchPc.wf])
            (by simp [SearchPc.notDone])
          acct := fun u => by
            have a := h.acct u
            have e := hsum u (.send sr)
            simp only [pendingA, recordedA, SearchPc.pending, hurl] at a e ⊢
            omega }
      · simp at hs
    | send sr => simp at hs
    | wgDone =>
      simp only at hs
      split at hs
      · rename_i hpos
        simp only [Option.some.injEq] at hs; subst hs
        exact { h with
          searches := invSearches_set h.searches hp _ _ (by simp [SearchPc.wf])
            (by simp [SearchPc.notDone]; omega)
          closerS_wg := fun hpass => by
            have := h.closerS_wg hpass
            omega
          acct := fun u => by
            have a := h.acct u
            have e := hsum u .done
            simp only [pendingA, recordedA, SearchPc.pending] at a e ⊢
            omega }
      · simp at hs
    | done => simp at hs

theorem invA_deliver {input : List String} {s s' : StateA} {j : Nat}
    (h : InvA input s) (hs : stepDeliver s j = some s') : InvA input s' := by
  unfold stepDeliver at hs
  split at hs
  · rename_i sr hp hw
    split at hs
    · simp at hs
    · simp only [Option.some.injEq] at hs; subst hs
      have hh := h.out_head
      rw [hw] at hh
      exact { h with
        searches := invSearches_set h.searches hp _ _ (by simp [SearchPc.wf])
          (by simp [SearchPc.notDone])
        writer_sr := by simp [WriterPc.pastLoop]
        out_head := hh
        acct := fun u => by
          have a := h.acct u
          have e := sum_map_set (SearchPc.pending u) s.searches j _ .wgDone hp
          simp only [pendingA, recordedA, SearchPc.pending, WriterPc.pending, hw] at a e ⊢
          omega }
  · simp at hs

theorem recordTarget_createRecord (sr : SearchResult) :
    recordTarget (createRecord sr) = sr.url := by
  unfold recordTarget createRecord
  cases sr.err <;> rfl

theorem invA_writer {input : List String} {s s' : StateA}
    (h : InvA input s) (hs : stepWriteResults s = some s') : InvA input s' := by
  unfold stepWriteResults at hs
  have hh := h.out_head
  have hsr := h.writer_sr
  split at hs
  · rename_i hw
    rw [hw] at hh
    simp only [Option.some.injEq] at hs; subst hs
    exact { h with
      writer_sr := by simp [WriterPc.pastLoop]
      out_head := hh
      acct := fun u => by
        have a := h.acct u
        simp only [pendingA, recordedA, WriterPc.pending, hw] at a ⊢
        omega }
  · rename_i hw
    rw [hw] at hh
    simp only [Option.some.injEq] at hs; subst hs
    have hnil : s.out = [] := by simpa [WriterPc.started] using hh
    exact { h with
      writer_sr := by simp [WriterPc.pastLoop]
      out_head := by simp [hnil, WriterPc.started]
      out_recs := by simp [recordedA, hnil]
      acct := fun u => by
        have a := h.acct u
        simp only [pendingA, recordedA, WriterPc.pending, hw, hnil, List.nil_append,
          List.tail_cons, List.tail_nil] at a ⊢
        omega }
  · rename_i hw
    rw [hw] at hh
    split at hs
    · rename_i hc
      simp only [Option.some.injEq] at hs; subst hs
      exact { h with
        writer_sr := fun _ => hc
        out_head := hh
        acct := fun u => by
          have a := h.acct u
          simp only [pendingA, recordedA, WriterPc.pending, hw] at a ⊢
          omega }
    · simp at hs
  · rename_i sr hw
    rw [hw] at hh
    simp only [Option.some.injEq] at hs; subst hs
    obtain ⟨tl, htl⟩ : ∃ tl, s.out = createHeaders :: tl := by
      cases hout : s.out with
      | nil => simp [hout, WriterPc.started] at hh
      | cons a tl =>
        simp [hout, WriterPc.started] at hh
        exact ⟨tl, by rw [hh]⟩
    have hrecs := h.out_recs
    simp only [recordedA, htl, List.tail_cons] at hrecs
    exact { h with
      writer_sr := by simp [WriterPc.pastLoop]
      out_head := by simp [htl, WriterPc.started]
      out_recs := by
        intro r hr
        simp only [recordedA, htl, List.cons_append, List.tail_cons, List.mem_append,
          List.mem_singleton] at hr
        rcases hr with h1 | h1
        · exact hrecs r h1
        · exact ⟨sr, h1⟩
      acct := fun u => by
        have a := h.acct u
        simp only [pendingA, recordedA, WriterPc.pending, hw, htl, List.cons_append,
          List.tail_cons, List.map_append, List.map_cons, List.map_nil, count_append_same,
          recordTarget_createRecord] at a ⊢
        omega }
  · rename_i hw
    rw [hw] at hh
    simp only [Option.some.injEq] at hs; subst hs
    exact { h with
      writer_sr := fun _ => hsr (by simp [hw, WriterPc.pastLoop])
      out_head := hh
      acct := fun u => by
        have a := h.acct u
        simp only [pendingA, recordedA, WriterPc.pending, hw] at a ⊢
        omega }
  · simp at hs

theorem invA_step {input : List String} {regex : Regexp} {s s' : StateA} {a : ActA}
    (h : InvA input s) (hs : stepA regex s a = some s') : InvA input s' := by
  cases a with
  | reader => exact invA_reader h hs
  | worker i g => exact invA_worker h hs
  | handOver i => exact invA_handOver h hs
  | closerF =>
    simp only [stepA, Option.map_eq_some'] at hs
    obtain ⟨pc, h1, h2⟩ := hs
    exact h2 ▸ invA_closerF h h1
  | disp => exact invA_disp h hs
  | search j => exact invA_search h hs
  | deliver j => exact invA_deliver h hs
  | closerS =>
    simp only [stepA, Option.map_eq_some'] at hs
    obtain ⟨pc, h1, h2⟩ := hs
    exact h2 ▸ invA_closerS h h1
  | writer => exact invA_writer h hs

theorem invA_run {input : List String} {regex : Regexp} (acts : List ActA) {s s' : StateA}
    (h : InvA input s) (hs : runA regex s acts = some s') : InvA input s' := by
  induction acts generalizing s with
  | nil =>
    simp only [runA, Option.some.injEq] at hs
    exact hs ▸ h
  | cons a as ih =>
    simp only [runA] at hs
    split at hs
    · simp at hs
    · rename_i s1 h1
      exact ih (invA_step h h1) hs

theorem invA_reachable {input : List String} {regex : Regexp} {s : StateA}
    (h : ReachableA regex input s) : InvA input s := by
  obtain ⟨acts, ha⟩ := h
  exact invA_run acts (invA_init input) ha


theorem workerPending_le (u : String) (w : WorkerPc) : w.pending u ≤ w.notDone := by
  cases w <;> simp [WorkerPc.pending, WorkerPc.notDone, same] <;> split <;> omega

theorem searchPending_le (u : String) (p : SearchPc) : p.pending u ≤ p.notDone := by
  cases p <;> simp [SearchPc.pending, SearchPc.notDone, same] <;> split <;> omega

theorem search_isSome {r : HTTPResponse} (regex : Regexp) (h : r.usable = true) :
    (search r regex).isSome = true := by
  unfold HTTPResponse.usable at h
  unfold search
  cases he : r.err with
  | some e => rfl
  | none =>
    cases hr : r.response with
    | none => simp [he, hr] at h
    | some resp =>
      simp only [ReadAll]
      cases resp.Body.readErr <;> rfl

/-- When `writeResults` has returned, nothing is pending. -/
theorem pendingA_done {input : List String} {s : StateA} (h : InvA input s)
    (hw : s.writer = .done) (u : String) : pendingA u s = 0 := by
  have hcs : s.closerS = .done := h.writer_sr (by simp [hw, WriterPc.pastLoop])
  have hwgS : s.wgS = 0 := h.closerS_wg (by simp [hcs, CloserPc.passed])
  have hd : s.disp = .done := by
    by_contra hne
    have := h.closerS_disp.2 hne
    simp [hcs] at this
  have hcf : s.closerF = .done := h.disp_rc (by simp [hd, DispPc.pastLoop])
  have hwgF : s.wgF = 0 := h.closerF_wg (by simp [hcf, CloserPc.passed])
  have h1 := h.workers.wg_eq
  have h2 := h.searches.wg_eq
  have h3 := sum_map_le (WorkerPc.pending u) WorkerPc.notDone s.workers (workerPending_le u)
  have h4 := sum_map_le (SearchPc.pending u) SearchPc.notDone s.searches (searchPending_le u)
  have hrows : s.rows = [] := by
    apply h.closed_rows
    have hlen := h.workers.len
    cases hws : s.workers with
    | nil => simp [hws, maxgo] at hlen
    | cons w ws =>
      have hmem : w ∈ s.workers := by simp [hws]
      apply h.workers.left_closed w hmem
      have hz := forall_zero_of_sum_zero WorkerPc.notDone s.workers (by omega) w hmem
      cases w <;> simp [WorkerPc.notDone] at hz
      rfl
  simp only [pendingA, hrows, hd, hw, DispPc.pending, WriterPc.pending, List.count_nil]
  omega

theorem exactly_once_A_aux (regex : Regexp) (input : List String) (s : StateA)
    (h : ReachableA regex input s) (hw : s.writer = .done) :
    s.out = createHeaders :: recordedA s ∧ ((recordedA s).map recordTarget).Perm input := by
  have hi := invA_reachable h
  constructor
  · have hh := hi.out_head
    simp only [hw, WriterPc.started, if_true] at hh
    unfold recordedA
    cases hout : s.out with
    | nil => simp [hout] at hh
    | cons a tl =>
      simp [hout] at hh
      simp [hh]
  · rw [List.perm_iff_count]
    intro u
    have := hi.acct u
    have := pendingA_done hi hw u
    omega

theorem progress_A (regex : Regexp) (input : List String) (s : StateA)
    (h : ReachableA regex input s) (hf : s.writer ≠ .done) :
    ∃ a, (stepA regex s a).isSome = true := by
  have hi := invA_reachable h
  -- a search goroutine that has not returned can move, or the writer can
  have keyS : s.writer = .recv → s.closerS ≠ .done →
      0 < (s.searches.map SearchPc.notDone).sum → ∃ a, (stepA regex s a).isSome = true := by
    intro hw hcs hpos
    obtain ⟨j, p, hp, hpj⟩ := exists_pos_of_sum_pos _ _ hpos
    have hwf := hi.searches.wf p (List.getElem?_mem hp)
    cases p with
    | search r =>
      refine ⟨.search j, ?_⟩
      obtain ⟨⟨sr, ops⟩, hsr⟩ := Option.isSome_iff_exists.1 (search_isSome regex hwf)
      simp [stepA, stepSearch, hp, hsr]
    | send sr => exact ⟨.deliver j, by simp [stepA, stepDeliver, hp, hw, hcs]⟩
    | wgDone =>
      have := hi.searches.wg_eq
      exact ⟨.search j, by simp [stepA, stepSearch, hp]; omega⟩
    | done => simp [SearchPc.notDone] at hpj
  -- a worker that has not returned can move, or the reader or the dispatcher can
  have keyW : s.disp = .recv → s.closerF ≠ .done →
      0 < (s.workers.map WorkerPc.notDone).sum → ∃ a, (stepA regex s a).isSome = true := by
    intro hd hcf hpos
    obtain ⟨i, w, hw, hwi⟩ := exists_pos_of_sum_pos _ _ hpos
    cases w with
    | recv =>
      cases hrows : s.rows with
      | cons url rest =>
        exact ⟨.worker i (.fail none ""), by simp [stepA, stepFetch, hw, hrows]⟩
      | nil =>
        cases hc : s.urlsClosed with
        | true => exact ⟨.worker i (.fail none ""), by simp [stepA, stepFetch, hw, hrows, hc]⟩
        | false => exact ⟨.reader, by simp [stepA, stepReadURLs, hrows, hc]⟩
    | get url => exact ⟨.worker i (.fail none ""), by simp [stepA, stepFetch, hw]⟩
    | send r => exact ⟨.handOver i, by simp [stepA, stepHandOver, hw, hd, hcf]⟩
    | afterSend r => exact ⟨.worker i (.fail none ""), by simp [stepA, stepFetch, hw]⟩
    | wgDone =>
      have := hi.workers.wg_eq
      exact ⟨.worker i (.fail none ""), by simp [stepA, stepFetch, hw]; omega⟩
    | done => simp [WorkerPc.notDone] at hwi
  cases hw : s.writer with
  | create => exact ⟨.writer, by simp [stepA, stepWriteResults, hw]⟩
  | header => exact ⟨.writer, by simp [stepA, stepWriteResults, hw]⟩
  | write sr => exact ⟨.writer, by simp [stepA, stepWriteResults, hw]⟩
  | flush => exact ⟨.writer, by simp [stepA, stepWriteResults, hw]⟩
  | done => exact absurd hw hf
  | recv =>
    by_cases hcs : s.closerS = .done
    · exact ⟨.writer, by simp [stepA, stepWriteResults, hw, hcs]⟩
    by_cases hpos : 0 < (s.searches.map SearchPc.notDone).sum
    · exact keyS hw hcs hpos
    have hwgS := hi.searches.wg_eq
    cases hd : s.disp with
    | add r => exact ⟨.disp, by simp [stepA, stepParallelSearch, hd]⟩
    | spawn r => exact ⟨.disp, by simp [stepA, stepParallelSearch, hd]⟩
    | spawnCloser => exact ⟨.disp, by simp [stepA, stepParallelSearch, hd]⟩
    | done =>
      have hne : s.closerS ≠ .idle := fun hidle => hi.closerS_disp.1 hidle hd
      rw [hd] at hwgS
      simp only [DispPc.added] at hwgS
      refine ⟨.closerS, ?_⟩
      cases hc : s.closerS with
      | idle => exact absurd hc hne
      | wait => simp [stepA, stepCloser, hc]; omega
      | close => simp [stepA, stepCloser, hc]
      | done => exact absurd hc hcs
    | recv =>
      by_cases hcf : s.closerF = .done
      · exact ⟨.disp, by simp [stepA, stepParallelSearch, hd, hcf]⟩
      by_cases hposW : 0 < (s.workers.map WorkerPc.notDone).sum
      · exact keyW hd hcf hposW
      have hwgF := hi.workers.wg_eq
      refine ⟨.closerF, ?_⟩
      cases hc : s.closerF with
      | idle => exact absurd hc hi.closerF_ne
      | wait => simp [stepA, stepCloser, hc]; omega
      | close => simp [stepA, stepCloser, hc]
      | done => exact absurd hc hcf


/-! ## No step fails -/

/-- In a state a run of variant A can be in, no goroutine stands at a step
that would fail: `wg.Done()` finds a positive counter, no send is on a closed
channel, and `search` has a response to read when there is no error. -/
theorem guards_hold_A (regex : Regexp) (input : List String) (s : StateA)
    (h : ReachableA regex input s) :
    (∀ i : Nat, s.workers[i]? = some .wgDone → 0 < s.wgF) ∧
    (∀ (i : Nat) (r : HTTPResponse), s.workers[i]? = some (.send r) → s.closerF ≠ .done) ∧
    (∀ j : Nat, s.searches[j]? = some .wgDone → 0 < s.wgS) ∧
    (∀ (j : Nat) (sr : SearchResult), s.searches[j]? = some (.send sr) →
      s.closerS ≠ .done) ∧
    (∀ (j : Nat) (r : HTTPResponse), s.searches[j]? = some (.search r) →
      (search r regex).isSome = true) := by
  have hi := invA_reachable h
  have hF := hi.workers.wg_eq
  have hS := hi.searches.wg_eq
  refine ⟨fun i hw => ?_, fun i r hw hc => ?_, fun j hp => ?_, fun j sr hp hc => ?_,
    fun j r hp => ?_⟩
  · have h1 := le_sum_of_get WorkerPc.notDone s.workers i _ hw
    simp only [WorkerPc.notDone] at h1
    omega
  · have h1 := le_sum_of_get WorkerPc.notDone s.workers i _ hw
    have h2 := hi.closerF_wg (by simp [hc, CloserPc.passed])
    simp only [WorkerPc.notDone] at h1
    omega
  · have h1 := le_sum_of_get SearchPc.notDone s.searches j _ hp
    simp only [SearchPc.notDone] at h1
    omega
  · have h1 := le_sum_of_get SearchPc.notDone s.searches j _ hp
    have h2 := hi.closerS_wg (by simp [hc, CloserPc.passed])
    simp only [SearchPc.notDone] at h1
    omega
  · exact search_isSome regex (hi.searches.wf _ (List.getElem?_mem hp))

/-- In a state a run of variant B can be in, a goroutine at `<-sem` finds a
value in the channel and a goroutine at `mu.Unlock()` finds the mutex
locked. -/
theorem guards_hold_B (re : Regexp) (input : List String) (s : StateB)
    (h : ReachableB re input s) :
    (∀ (j : Nat) (t : TaskB), s.tasks[j]? = some t → t.pc = .release → 0 < s.sem) ∧
    (∀ (j : Nat) (t : TaskB), s.tasks[j]? = some t → t.pc = .unlock → s.mu = true) := by
  have hi := invB_reachable h
  refine ⟨fun j t ht hpc => ?_, fun j t ht hpc => ?_⟩
  · have h1 := le_sum_of_get TaskB.active s.tasks j t ht
    have h2 := hi.sem_eq
    have h3 : t.active = 1 := by simp [TaskB.active, TaskB.running, hpc]
    omega
  · have h1 := le_sum_of_get TaskB.holdsMu s.tasks j t ht
    rw [hi.mu_eq] at h1
    cases hmu : s.mu with
    | true => rfl
    | false => simp [TaskB.holdsMu, hpc, hmu] at h1

/-! ## Every run ends -/

theorem stepB_stepsLeft {re : Regexp} {s s' : StateB} {a : ActB}
    (hs : stepB re s a = some s') : stepsLeftB s' + 1 = stepsLeftB s := by
  cases a with
  | main =>
    simp only [stepB, stepMainB] at hs
    split at hs
    · rename_i hm
      split at hs
      · rename_i hrows
        simp only [Option.some.injEq] at hs; subst hs
        simp only [stepsLeftB, hm, hrows, MainB.steps, maxGo, List.length_nil]
        omega
      · rename_i url rest hrows
        simp only [Option.some.injEq] at hs; subst hs
        simp only [stepsLeftB, hm, hrows, MainB.steps, maxGo, List.length_cons]
        omega
    · rename_i url hm
      split at hs
      · simp only [Option.some.injEq] at hs; subst hs
        simp only [stepsLeftB, hm, MainB.steps, maxGo]
        omega
      · simp at hs
    · rename_i url hm
      simp only [Option.some.injEq] at hs; subst hs
      simp only [stepsLeftB, hm, MainB.steps, maxGo, List.map_append, List.sum_append,
        List.map_cons, List.map_nil, List.sum_cons, List.sum_nil, PcB.steps]
      omega
    · rename_i i hm
      split at hs
      · rename_i hi
        split at hs
        · simp only [Option.some.injEq] at hs; subst hs
          simp only [stepsLeftB, hm, MainB.steps, maxGo] at hi ⊢
          omega
        · simp at hs
      · rename_i hi
        simp only [Option.some.injEq] at hs; subst hs
        simp only [stepsLeftB, hm, MainB.steps, maxGo] at hi ⊢
        omega
    · simp at hs
  | task j g =>
    simp only [stepB, stepFetchAndSearch] at hs
    split at hs
    · simp at hs
    · rename_i t ht
      have e := fun t' => sum_map_set (fun t : TaskB => t.pc.steps) s.tasks j t t' ht
      split at hs
      · rename_i hpc
        simp only [Option.some.injEq] at hs; subst hs
        have := e { t with pc := .lock (fetchAndSearch t.url g re).1 }
        simp only [stepsLeftB, hpc, PcB.steps] at this ⊢
        omega
      · rename_i row hpc
        split at hs
        · simp at hs
        · simp only [Option.some.injEq] at hs; subst hs
          have := e { t with pc := .write row }
          simp only [stepsLeftB, hpc, PcB.steps] at this ⊢
          omega
      · rename_i row hpc
        simp only [Option.some.injEq] at hs; subst hs
        have := e { t with pc := .unlock }
        simp only [stepsLeftB, hpc, PcB.steps] at this ⊢
        omega
      · rename_i hpc
        simp only [Option.some.injEq] at hs; subst hs
        have := e { t with pc := .release }
        simp only [stepsLeftB, hpc, PcB.steps] at this ⊢
        omega
      · rename_i hpc
        split at hs
        · simp only [Option.some.injEq] at hs; subst hs
          have := e { t with pc := .done }
          simp only [stepsLeftB, hpc, PcB.steps] at this ⊢
          omega
        · simp at hs
      · simp at hs

theorem runB_stepsLeft {re : Regexp} (acts : List ActB) {s s' : StateB}
    (hs : runB re s acts = some s') : stepsLeftB s' + acts.length = stepsLeftB s := by
  induction acts generalizing s with
  | nil =>
    simp only [runB, Option.some.injEq] at hs
    simp [hs]
  | cons a as ih =>
    simp only [runB] at hs
    split at hs
    · simp at hs
    · rename_i s1 h1
      have := ih hs
      have := stepB_stepsLeft h1
      simp only [List.length_cons]
      omega

theorem runB_append {re : Regexp} (as bs : List ActB) {s s1 s2 : StateB}
    (h1 : runB re s as = some s1) (h2 : runB re s1 bs = some s2) :
    runB re s (as ++ bs) = some s2 := by
  induction as generalizing s with
  | nil =>
    simp only [runB, Option.some.injEq] at h1
    subst h1
    exact h2
  | cons a as ih =>
    simp only [runB, List.cons_append] at h1 ⊢
    split at h1
    · simp at h1
    · rename_i s' hs'
      exact ih h1

theorem terminates_B_aux (re : Regexp) (input : List String) (n : Nat) :
    ∀ s, ReachableB re input s → stepsLeftB s ≤ n →
      ∃ acts s', runB re s acts = some s' ∧ s'.main = .finished := by
  induction n with
  | zero =>
    intro s hr hn
    by_cases hf : s.main = .finished
    · exact ⟨[], s, rfl, hf⟩
    · obtain ⟨a, ha⟩ := progress_B re input s hr hf
      obtain ⟨s1, hs1⟩ := Option.isSome_iff_exists.1 ha
      have := stepB_stepsLeft hs1
      omega
  | succ n ih =>
    intro s hr hn
    by_cases hf : s.main = .finished
    · exact ⟨[], s, rfl, hf⟩
    · obtain ⟨a, ha⟩ := progress_B re input s hr hf
      obtain ⟨s1, hs1⟩ := Option.isSome_iff_exists.1 ha
      have hlt := stepB_stepsLeft hs1
      obtain ⟨acts0, hacts0⟩ := hr
      have hr1 : ReachableB re input s1 :=
        ⟨acts0 ++ [a], runB_append acts0 [a] hacts0 (by simp [runB, hs1])⟩
      obtain ⟨acts, s', hrun, hfin⟩ := ih s1 hr1 (by omega)
      exact ⟨a :: acts, s', by simp [runB, hs1, hrun], hfin⟩

theorem stepA_stepsLeft {input : List String} {regex : Regexp} {s s' : StateA} {a : ActA}
    (h : InvA input s) (hs : stepA regex s a = some s') : stepsLeftA s' + 1 = stepsLeftA s := by
  cases a with
  | reader =>
    simp only [stepA, stepReadURLs] at hs
    split at hs
    · split at hs
      · simp at hs
      · rename_i hc
        simp only [Option.some.injEq] at hs; subst hs
        simp only [stepsLeftA, hc]
        simp
        omega
    · simp at hs
  | worker i g =>
    simp only [stepA, stepFetch] at hs
    split at hs
    · simp at hs
    · rename_i w hw
      have e := fun w' => sum_map_set WorkerPc.steps s.workers i w w' hw
      cases w with
      | recv =>
        simp only at hs
        split at hs
        · rename_i url rest hrows
          simp only [Option.some.injEq] at hs; subst hs
          have := e (.get url)
          simp only [stepsLeftA, hrows, WorkerPc.steps, List.length_cons] at this ⊢
          omega
        · split at hs
          · simp only [Option.some.injEq] at hs; subst hs
            have := e .wgDone
            simp only [stepsLeftA, WorkerPc.steps] at this ⊢
            omega
          · simp at hs
      | get url =>
        simp only [Option.some.injEq] at hs; subst hs
        have := e (.send (fetchResponse url g))
        simp only [stepsLeftA, WorkerPc.steps] at this ⊢
        omega
      | send r => simp at hs
      | afterSend r =>
        simp only [Option.some.injEq] at hs; subst hs
        have := e .recv
        simp only [stepsLeftA, WorkerPc.steps] at this ⊢
        omega
      | wgDone =>
        simp only at hs
        split at hs
        · simp only [Option.some.injEq] at hs; subst hs
          have := e .done
          simp only [stepsLeftA, WorkerPc.steps] at this ⊢
          omega
        · simp at hs
      | done => simp at hs
  | handOver i =>
    simp only [stepA, stepHandOver] at hs
    split at hs
    · rename_i r hw hd
      split at hs
      · simp at hs
      · simp only [Option.some.injEq] at hs; subst hs
        have := sum_map_set WorkerPc.steps s.workers i _ (.afterSend r) hw
        simp only [stepsLeftA, hd, WorkerPc.steps, DispPc.steps] at this ⊢
        omega
    · simp at hs
  | closerF =>
    simp only [stepA, Option.map_eq_some'] at hs
    obtain ⟨pc, h1, h2⟩ := hs
    subst h2
    unfold stepCloser at h1
    split at h1
    · simp at h1
    · rename_i hc
      split at h1
      · simp only [Option.some.injEq] at h1; subst h1
        simp only [stepsLeftA, hc, CloserPc.steps]
        omega
      · simp at h1
    · rename_i hc
      simp only [Option.some.injEq] at h1; subst h1
      simp only [stepsLeftA, hc, CloserPc.steps]
      omega
    · simp at h1
  | disp =>
    simp only [stepA, stepParallelSearch] at hs
    split at hs
    · rename_i hd
      split at hs
      · simp only [Option.some.injEq] at hs; subst hs
        simp only [stepsLeftA, hd, DispPc.steps]
        omega
      · simp at hs
    · rename_i r hd
      simp only [Option.some.injEq] at hs; subst hs
      simp only [stepsLeftA, hd, DispPc.steps]
      omega
    · rename_i r hd
      simp only [Option.some.injEq] at hs; subst hs
      simp only [stepsLeftA, hd, DispPc.steps, List.map_append, List.sum_append,
        List.map_cons, List.map_nil, List.sum_cons, List.sum_nil, SearchPc.steps]
      omega
    · rename_i hd
      simp only [Option.some.injEq] at hs; subst hs
      have hidle : s.closerS = .idle := h.closerS_disp.2 (by simp [hd])
      simp only [stepsLeftA, hd, hidle, DispPc.steps, CloserPc.steps]
      omega
    · simp at hs
  | search j =>
    simp only [stepA, stepSearch] at hs
    split at hs
    · simp at hs
    · rename_i p hp
      have e := fun p' => sum_map_set SearchPc.steps s.searches j p p' hp
      cases p with
      | search r =>
        simp only at hs
        split at hs
        · rename_i sr ops hsr
          simp only [Option.some.injEq] at hs; subst hs
          have := e (.send sr)
          simp only [stepsLeftA, SearchPc.steps] at this ⊢
          omega
        · simp at hs
      | send sr => simp at hs
      | wgDone =>
        simp only at hs
        split at hs
        · simp only [Option.some.injEq] at hs; subst hs
          have := e .done
          simp only [stepsLeftA, SearchPc.steps] at this ⊢
          omega
        · simp at hs
      | done => simp at hs
  | deliver j =>
    simp only [stepA, stepDeliver] at hs
    split at hs
    · rename_i sr hp hw
      split at hs
      · simp at hs
      · simp only [Option.some.injEq] at hs; subst hs
        have := sum_map_set SearchPc.steps s.searches j _ .wgDone hp
        simp only [stepsLeftA, hw, SearchPc.steps, WriterPc.steps] at this ⊢
        omega
    · simp at hs
  | closerS =>
    simp only [stepA, Option.map_eq_some'] at hs
    obtain ⟨pc, h1, h2⟩ := hs
    subst h2
    unfold stepCloser at h1
    split at h1
    · simp at h1
    · rename_i hc
      split at h1
      · simp only [Option.some.injEq] at h1; subst h1
        simp only [stepsLeftA, hc, CloserPc.steps]
        omega
      · simp at h1
    · rename_i hc
      simp only [Option.some.injEq] at h1; subst h1
      simp only [stepsLeftA, hc, CloserPc.steps]
      omega
    · simp at h1
  | writer =>
    simp only [stepA, stepWriteResults] at hs
    split at hs
    · rename_i hw
      simp only [Option.some.injEq] at hs; subst hs
      simp only [stepsLeftA, hw, WriterPc.steps]
    · rename_i hw
      simp only [Option.some.injEq] at hs; subst hs
      simp only [stepsLeftA, hw, WriterPc.steps]
    · rename_i hw
      split at hs
      · simp only [Option.some.injEq] at hs; subst hs
        simp only [stepsLeftA, hw, WriterPc.steps]
      · simp at hs
    · rename_i sr hw
      simp only [Option.some.injEq] at hs; subst hs
      simp only [stepsLeftA, hw, WriterPc.steps]
    · rename_i hw
      simp only [Option.some.injEq] at hs; subst hs
      simp only [stepsLeftA, hw, WriterPc.steps]
    · simp at hs

theorem runA_stepsLeft {input : List String} {regex : Regexp} (acts : List ActA)
    {s s' : StateA} (h : InvA input s) (hs : runA regex s acts = some s') :
    stepsLeftA s' + acts.length = stepsLeftA s := by
  induction acts generalizing s with
  | nil =>
    simp only [runA, Option.some.injEq] at hs
    simp [hs]
  | cons a as ih =>
    simp only [runA] at hs
    split at hs
    · simp at hs
    · rename_i s1 h1
      have := ih (invA_step h h1) hs
      have := stepA_stepsLeft h h1
      simp only [List.length_cons]
      omega

theorem runA_append {regex : Regexp} (as bs : List ActA) {s s1 s2 : StateA}
    (h1 : runA regex s as = some s1) (h2 : runA regex s1 bs = some s2) :
    runA regex s (as ++ bs) = some s2 := by
  induction as generalizing s with
  | nil =>
    simp only [runA, Option.some.injEq] at h1
    subst h1
    exact h2
  | cons a as ih =>
    simp only [runA, List.cons_append] at h1 ⊢
    split at h1
    · simp at h1
    · exact ih h1

theorem terminates_A_aux (regex : Regexp) (input : List String) (n : Nat) :
    ∀ s, ReachableA regex input s → stepsLeftA s ≤ n →
      ∃ acts s', runA regex s acts = some s' ∧ s'.writer = .done := by
  induction n with
  | zero =>
    intro s hr hn
    by_cases hf : s.writer = .done
    · exact ⟨[], s, rfl, hf⟩
    · obtain ⟨a, ha⟩ := progress_A regex input s hr hf
      obtain ⟨s1, hs1⟩ := Option.isSome_iff_exists.1 ha
      have := stepA_stepsLeft (invA_reachable hr) hs1
      omega
  | succ n ih =>
    intro s hr hn
    by_cases hf : s.writer = .done
    · exact ⟨[], s, rfl, hf⟩
    · obtain ⟨a, ha⟩ := progress_A regex input s hr hf
      obtain ⟨s1, hs1⟩ := Option.isSome_iff_exists.1 ha
      have hlt := stepA_stepsLeft (invA_reachable hr) hs1
      obtain ⟨acts0, hacts0⟩ := hr
      have hr1 : ReachableA regex input s1 :=
        ⟨acts0 ++ [a], runA_append acts0 [a] hacts0 (by simp [runA, hs1])⟩
      obtain ⟨acts, s', hrun, hfin⟩ := ih s1 hr1 (by omega)
      exact ⟨a :: acts, s', by simp [runA, hs1, hrun], hfin⟩


/-- A run of variant A on `input` that has made `acts.length` steps has
`stepsLeftA` steps left, out of `10 * input.length + 51`. -/
theorem run_length_A (regex : Regexp) (input : List String) (acts : List ActA) (s : StateA)
    (h : runA regex (initA input) acts = some s) :
    stepsLeftA s + acts.length = 10 * input.length + 51 := by
  have := runA_stepsLeft acts (invA_init input) h
  rw [this]
  simp [stepsLeftA, initA, maxgo, WorkerPc.steps, CloserPc.steps, DispPc.steps, WriterPc.steps]

/-- From every state a run of variant A can be in, the run can go on until
`writeResults` has returned. -/
theorem terminates_A (regex : Regexp) (input : List String) (s : StateA)
    (h : ReachableA regex input s) :
    ∃ acts s', runA regex s acts = some s' ∧ s'.writer = .done :=
  terminates_A_aux regex input (stepsLeftA s) s h (le_refl _)

/-- A run of variant B on `input` that has made `acts.length` steps has
`stepsLeftB` steps left, out of `8 * input.length + 22`. -/
theorem run_length_B (re : Regexp) (input : List String) (acts : List ActB) (s : StateB)
    (h : runB re (initB input) acts = some s) :
    stepsLeftB s + acts.length = 8 * input.length + 22 := by
  have := runB_stepsLeft acts h
  rw [this]
  simp [stepsLeftB, initB, maxGo, MainB.steps]

/-- From every state a run of variant B can be in, the run can go on until
`main` is past its final loop. -/
theorem terminates_B (re : Regexp) (input : List String) (s : StateB)
    (h : ReachableB re input s) :
    ∃ acts s', runB re s acts = some s' ∧ s'.main = .finished :=
  terminates_B_aux re input (stepsLeftB s) s h (le_refl _)

/-! ## Rows of plain text -/

theorem appendEscapedRune_plain {uni : Char → Bool} {c : Char} (h : plainRune uni c = true) :
    appendEscapedRune uni c = [c] := by
  simp only [plainRune, Bool.and_eq_true, bne_iff_ne, ne_eq] at h
  simp [appendEscapedRune, h.1.1, h.1.2, h.2]

theorem Quote_plain (uni : Char → Bool) (s : List Char)
    (h : ∀ c ∈ s, plainRune uni c = true) :
    Quote uni s = [dquote] ++ s ++ [dquote] := by
  have : s.flatMap (appendEscapedRune uni) = s := by
    induction s with
    | nil => rfl
    | cons c cs ih =>
      simp only [List.flatMap_cons]
      rw [appendEscapedRune_plain (h c (by simp)), ih (fun d hd => h d (by simp [hd]))]
      rfl
  simp [Quote, this]

theorem toList_mk (l : List Char) : (String.mk l).toList = l := rfl

theorem csvRead_quoted (uni : Char → Bool) (s : List Char)
    (h : ∀ c ∈ s, plainRune uni c = true) (fields : List String) (cur rest : List Char) :
    csvRead .quoted fields cur (s ++ rest) = csvRead .quoted fields (cur ++ s) rest := by
  induction s generalizing cur with
  | nil => simp
  | cons c cs ih =>
    have hc := h c (by simp)
    simp only [plainRune, Bool.and_eq_true, bne_iff_ne, ne_eq] at hc
    have := ih (fun d hd => h d (by simp [hd])) (cur ++ [c])
    rw [List.cons_append, csvRead]
    simp only [hc.1.1, if_false]
    rw [this]
    simp

theorem csvRead_quotedField (uni : Char → Bool) (s : List Char)
    (h : ∀ c ∈ s, plainRune uni c = true) (fields : List String) (rest : List Char) :
    csvRead .fieldStart fields [] ([dquote] ++ s ++ [dquote] ++ rest)
      = csvRead .quoteSeen fields s rest := by
  have e : [dquote] ++ s ++ [dquote] ++ rest = dquote :: (s ++ dquote :: rest) := by simp
  rw [e, csvRead]
  simp only [if_true]
  rw [csvRead_quoted uni s h, csvRead]
  simp

theorem csvRead_afterQuote_comma (fields : List String) (cur rest : List Char) :
    csvRead .quoteSeen fields cur (',' :: rest)
      = csvRead .fieldStart (fields ++ [String.mk cur]) [] rest := by
  rw [csvRead]
  have hd : ¬ (',' = dquote) := by decide
  simp [hd]

theorem csvRead_afterQuote_newline (fields : List String) (cur : List Char) :
    csvRead .quoteSeen fields cur [Char.ofNat 10] = some (fields ++ [String.mk cur]) := by
  have hd : ¬ (Char.ofNat 10 = dquote) := by decide
  have hc : ¬ (Char.ofNat 10 = ',') := by decide
  simp [csvRead, hd, hc]

theorem csvRead_empty_newline (fields : List String) :
    csvRead .fieldStart fields [] [Char.ofNat 10] = some (fields ++ [""]) := by
  have hd : ¬ (Char.ofNat 10 = dquote) := by decide
  have hc : ¬ (Char.ofNat 10 = ',') := by decide
  simp [csvRead, hd, hc]

theorem csvRead_bool (fields : List String) (res : Bool) (rest : List Char) :
    csvRead .fieldStart fields [] (formatBool res ++ [','] ++ rest)
      = csvRead .fieldStart (fields ++ [if res then "true" else "false"]) [] rest := by
  cases res
  · have e : formatBool false ++ [','] ++ rest
        = 'f' :: 'a' :: 'l' :: 's' :: 'e' :: ',' :: rest := rfl
    rw [e]
    simp only [csvRead]
    rfl
  · have e : formatBool true ++ [','] ++ rest = 't' :: 'r' :: 'u' :: 'e' :: ',' :: rest := rfl
    rw [e]
    simp only [csvRead]
    rfl

/-- For a url and an error text made of runes that `strconv.Quote` copies as
they are, the line `writeToFile` writes decodes to the fields of
`createRecord`. -/
theorem writeToFile_plain_decodes (uni : Char → Bool) (url : String) (res : Bool)
    (err : Option Err) (hurl : ∀ c ∈ url.toList, plainRune uni c = true)
    (herr : ∀ e, err = some e → ∀ c ∈ e.toList, plainRune uni c = true) :
    csvDecode (writeToFile uni url res err)
      = some (createRecord { url := url, result := res, err := err }) := by
  cases err with
  | none =>
    simp only [csvDecode, writeToFile, Quote_plain uni _ hurl, createRecord, toList_mk]
    have e : [dquote] ++ url.toList ++ [dquote] ++ [','] ++ formatBool res ++ [',']
          ++ [Char.ofNat 10]
        = [dquote] ++ url.toList ++ [dquote]
          ++ (',' :: (formatBool res ++ [','] ++ [Char.ofNat 10])) := by
      simp
    rw [e, csvRead_quotedField uni _ hurl, csvRead_afterQuote_comma, csvRead_bool,
      csvRead_empty_newline]
    rfl
  | some e =>
    have he := herr e rfl
    simp only [csvDecode, writeToFile, Quote_plain uni _ hurl, Quote_plain uni _ he, createRecord,
      toList_mk]
    have e1 : [dquote] ++ url.toList ++ [dquote] ++ [','] ++ formatBool res ++ [',']
          ++ ([dquote] ++ e.toList ++ [dquote]) ++ [Char.ofNat 10]
        = [dquote] ++ url.toList ++ [dquote] ++ (',' :: (formatBool res ++ [',']
          ++ ([dquote] ++ e.toList ++ [dquote] ++ [Char.ofNat 10]))) := by
      simp
    rw [e1, csvRead_quotedField uni _ hurl, csvRead_afterQuote_comma, csvRead_bool,
      csvRead_quotedField uni _ he, csvRead_afterQuote_newline]
    rfl


/-! ## No row is a header -/

/-- The fields read so far stay at the head of what the reader returns. -/
theorem csvRead_fields_prefix (L : List Char) :
    ∀ (mode : CsvMode) (fields : List String) (cur : List Char) (fs : List String),
      csvRead mode fields cur L = some fs → fields <+: fs := by
  induction L with
  | nil =>
    intro mode fields cur fs h
    cases mode <;> simp only [csvRead, Option.some.injEq] at h <;>
      first
        | (subst h; exact List.prefix_append _ _)
        | (subst h; exact List.prefix_refl _)
        | exact absurd h (by simp)
  | cons c cs ih =>
    intro mode fields cur fs h
    have step : ∀ (m : CsvMode) (x : String) (k : List Char),
        csvRead m (fields ++ [x]) k cs = some fs → fields <+: fs := fun m x k hk =>
      (List.prefix_append fields [x]).trans (ih m _ k fs hk)
    cases mode <;> simp only [csvRead] at h
    · split at h
      · exact ih _ _ _ _ h
      · split at h
        · exact step _ _ _ h
        · split at h
          · exact step _ _ _ h
          · exact ih _ _ _ _ h
    · split at h
      · simp at h
      · split at h
        · exact step _ _ _ h
        · split at h
          · exact step _ _ _ h
          · exact ih _ _ _ _ h
    · split at h
      · exact ih _ _ _ _ h
      · exact ih _ _ _ _ h
    · split at h
      · exact ih _ _ _ _ h
      · split at h
        · exact step _ _ _ h
        · split at h
          · exact step _ _ _ h
          · simp at h
    · simp at h

/-- In a field that is being read, the runes read so far stay at the head of
the first field the reader returns. -/
theorem csvRead_first_field (L : List Char) :
    ∀ (mode : CsvMode) (cur : List Char) (fs : List String),
      (mode = .bare ∨ mode = .quoted ∨ mode = .quoteSeen) →
      csvRead mode [] cur L = some fs → ∃ f tl, fs = f :: tl ∧ cur <+: f.toList := by
  induction L with
  | nil =>
    intro mode cur fs hm h
    rcases hm with rfl | rfl | rfl <;> simp only [csvRead, Option.some.injEq] at h
    · exact ⟨String.mk cur, [], by simpa using h.symm, List.prefix_refl _⟩
    · exact absurd h (by simp)
    · exact ⟨String.mk cur, [], by simpa using h.symm, List.prefix_refl _⟩
  | cons c cs ih =>
    intro mode cur fs hm h
    have emit : ∀ (m : CsvMode) (k : List Char),
        csvRead m ([] ++ [String.mk cur]) k cs = some fs →
          ∃ f tl, fs = f :: tl ∧ cur <+: f.toList := by
      intro m k hk
      obtain ⟨tl, htl⟩ := csvRead_fields_prefix cs m _ k fs hk
      exact ⟨String.mk cur, tl, by simpa using htl.symm, List.prefix_refl _⟩
    have grow : ∀ (m : CsvMode) (x : Char),
        (m = .bare ∨ m = .quoted ∨ m = .quoteSeen) →
        csvRead m [] (cur ++ [x]) cs = some fs → ∃ f tl, fs = f :: tl ∧ cur <+: f.toList := by
      intro m x hm' hk
      obtain ⟨f, tl, hfs, hpre⟩ := ih m _ fs hm' hk
      exact ⟨f, tl, hfs, (List.prefix_append cur [x]).trans hpre⟩
    rcases hm with rfl | rfl | rfl <;> simp only [csvRead] at h
    · split at h
      · simp at h
      · split at h
        · exact emit _ _ h
        · split at h
          · exact emit _ _ h
          · exact grow _ _ (Or.inl rfl) h
    · split at h
      · exact ih _ _ _ (Or.inr (Or.inr rfl)) h
      · exact grow _ _ (Or.inr (Or.inl rfl)) h
    · split at h
      · exact grow _ _ (Or.inr (Or.inl rfl)) h
      · split at h
        · exact emit _ _ h
        · split at h
          · exact emit _ _ h
          · simp at h

theorem lowerhex_ne_dquote (n : Nat) : lowerhex (n % 16) ≠ dquote := by
  have h : n % 16 < 16 := Nat.mod_lt _ (by decide)
  generalize n % 16 = k at h
  interval_cases k <;> decide

theorem dquote_not_mem_hexDigits (width n : Nat) : dquote ∉ hexDigits width n := by
  unfold hexDigits
  intro h
  obtain ⟨k, _, hk⟩ := List.mem_map.1 h
  exact lowerhex_ne_dquote _ hk

theorem dquote_not_mem_pair (x : Char) (hx : dquote ≠ x) : dquote ∉ [backslash, x] := by
  have hb : dquote ≠ backslash := by decide
  simp [hb, hx]

theorem dquote_not_mem_hex (x : Char) (hx : dquote ≠ x) (width n : Nat) :
    dquote ∉ [backslash, x] ++ hexDigits width n := by
  intro h
  rcases List.mem_append.1 h with h1 | h1
  · exact dquote_not_mem_pair x hx h1
  · exact dquote_not_mem_hexDigits width n h1

/-- What `strconv.Quote` writes for a rune other than the double quote and
the backslash holds no double quote. -/
theorem dquote_not_mem_appendEscapedRune (uni : Char → Bool) (c : Char)
    (h1 : c ≠ dquote) (h2 : c ≠ backslash) : dquote ∉ appendEscapedRune uni c := by
  unfold appendEscapedRune
  rw [if_neg (by simp [h1, h2])]
  split
  · simpa using fun h => h1 h.symm
  split
  · exact dquote_not_mem_pair _ (by decide)
  split
  · exact dquote_not_mem_pair _ (by decide)
  split
  · exact dquote_not_mem_pair _ (by decide)
  split
  · exact dquote_not_mem_pair _ (by decide)
  split
  · exact dquote_not_mem_pair _ (by decide)
  split
  · exact dquote_not_mem_pair _ (by decide)
  split
  · exact dquote_not_mem_pair _ (by decide)
  split
  · exact dquote_not_mem_hex _ (by decide) _ _
  split
  · exact dquote_not_mem_hex _ (by decide) _ _
  · exact dquote_not_mem_hex _ (by decide) _ _

theorem csvRead_quoted_run (M : List Char) (hM : dquote ∉ M) (fields : List String)
    (cur rest : List Char) :
    csvRead .quoted fields cur (M ++ rest) = csvRead .quoted fields (cur ++ M) rest := by
  induction M generalizing cur with
  | nil => simp
  | cons c cs ih =>
    have hc : ¬ c = dquote := fun h => hM (by simp [h])
    have := ih (fun h => hM (by simp [h])) (cur ++ [c])
    rw [List.cons_append, csvRead]
    simp only [hc, if_false]
    rw [this]
    simp

theorem headers_second_field (f b : String)
    (hb : b = "true" ∨ b = "false") : ¬ [f, b] <+: createHeaders := by
  intro h
  have e : createHeaders = ["url", "result", "error"] := rfl
  rw [e] at h
  obtain ⟨t, ht⟩ := h
  simp only [List.cons_append, List.nil_append, List.cons.injEq] at ht
  rcases hb with rfl | rfl
  · exact absurd ht.2.1 (by decide)
  · exact absurd ht.2.1 (by decide)

theorem headers_first_field (f : String) (tl : List String) (cur : List Char)
    (hpre : cur ++ [backslash] <+: f.toList) : f :: tl ≠ createHeaders := by
  intro h
  have e : createHeaders = ["url", "result", "error"] := rfl
  rw [e] at h
  simp only [List.cons.injEq] at h
  have hmem : backslash ∈ f.toList := hpre.subset (by simp)
  rw [h.1] at hmem
  exact absurd hmem (by decide)

/-- The reader, in the quoted field that `strconv.Quote` of `cs` opens,
followed by a comma and the field of `%t`, never returns the header
record. -/
theorem csvRead_quote_ne_headers (uni : Char → Bool) (res : Bool) (tail : List Char)
    (cs : List Char) :
    ∀ (cur : List Char) (fs : List String),
      csvRead .quoted [] cur (cs.flatMap (appendEscapedRune uni)
        ++ dquote :: ',' :: (formatBool res ++ [','] ++ tail)) = some fs →
      fs ≠ createHeaders := by
  induction cs with
  | nil =>
    intro cur fs h
    simp only [List.flatMap_nil, List.nil_append] at h
    rw [csvRead] at h
    simp only [if_true] at h
    rw [csvRead_afterQuote_comma, csvRead_bool] at h
    have hp := csvRead_fields_prefix _ _ _ _ _ h
    intro hfs
    rw [hfs] at hp
    refine headers_second_field (String.mk cur) _ ?_ (by simpa using hp)
    cases res <;> simp
  | cons c cs ih =>
    intro cur fs h
    rw [List.flatMap_cons, List.append_assoc] at h
    by_cases hc : c = dquote ∨ c = backslash
    · have he : appendEscapedRune uni c = [backslash, c] := by
        simp [appendEscapedRune, hc]
      rw [he] at h
      simp only [List.cons_append, List.nil_append] at h
      rw [csvRead] at h
      have hb : ¬ backslash = dquote := by decide
      simp only [hb, if_false] at h
      obtain ⟨f, tl, hfs, hpre⟩ := csvRead_first_field _ _ _ _ (Or.inr (Or.inl rfl)) h
      rw [hfs]
      exact headers_first_field f tl cur hpre
    · have hc' : c ≠ dquote ∧ c ≠ backslash := by
        constructor
        · exact fun h1 => hc (Or.inl h1)
        · exact fun h1 => hc (Or.inr h1)
      rw [csvRead_quoted_run _ (dquote_not_mem_appendEscapedRune uni c hc'.1 hc'.2)] at h
      exact ih _ _ h

/-- No line `writeToFile` writes decodes to the header record of variant A. -/
theorem writeToFile_ne_headers (uni : Char → Bool) (url : String) (res : Bool)
    (err : Option Err) : csvDecode (writeToFile uni url res err) ≠ some createHeaders := by
  intro h
  cases err with
  | none =>
    simp only [csvDecode, writeToFile, Quote, toList_mk] at h
    have e : [dquote] ++ url.toList.flatMap (appendEscapedRune uni) ++ [dquote] ++ [',']
          ++ formatBool res ++ [','] ++ [Char.ofNat 10]
        = dquote :: (url.toList.flatMap (appendEscapedRune uni)
          ++ dquote :: ',' :: (formatBool res ++ [','] ++ [Char.ofNat 10])) := by
      simp
    rw [e, csvRead] at h
    simp only [if_true] at h
    exact csvRead_quote_ne_headers uni res _ _ _ _ h rfl
  | some e0 =>
    simp only [csvDecode, writeToFile, Quote, toList_mk] at h
    have e : [dquote] ++ url.toList.flatMap (appendEscapedRune uni) ++ [dquote] ++ [',']
          ++ formatBool res ++ [',']
          ++ ([dquote] ++ e0.toList.flatMap (appendEscapedRune uni) ++ [dquote])
          ++ [Char.ofNat 10]
        = dquote :: (url.toList.flatMap (appendEscapedRune uni)
          ++ dquote :: ',' :: (formatBool res ++ [',']
            ++ ([dquote] ++ e0.toList.flatMap (appendEscapedRune uni) ++ [dquote]
              ++ [Char.ofNat 10]))) := by
      simp
    rw [e, csvRead] at h
    simp only [if_true] at h
    exact csvRead_quote_ne_headers uni res _ _ _ _ h rfl


/-! ## The claims -/

theorem runA_actsA3 : runA treasureRegexp (initA input3) actsA3 = some finalA3 := by decide

theorem runB_actsB3 : runB treasureRegexp (initB input3) actsB3 = some finalB3 := by decide

theorem runB_actsB3mid : runB treasureRegexp (initB input3) actsB3mid = some midB3 := by decide

theorem runA_actsA3mid : runA treasureRegexp (initA input3) actsA3mid = some midA3 := by decide

theorem runA_acts21 : runA treasureRegexp (initA input21) acts21 = some state21 := by decide

theorem createRecord_ne_createHeaders (sr : SearchResult) : createRecord sr ≠ createHeaders := by
  unfold createRecord createHeaders
  cases sr.result <;> cases sr.err <;> simp

/-- C1. Exactly-once accounting: when a run of variant A on `input` has
ended (`writeResults` has returned) the outcome rows it has written, and when
a run of variant B on `input` has ended (`main` is past its final loop) the
rows it has written, are as many as the input targets, and the multiset of
their targets is the multiset of the input targets, whatever the
interleaving and whatever the GETs and the reads answer. -/
theorem exactly_once_accounting (regex : Regexp) (input : List String) :
    (∀ sA : StateA, ReachableA regex input sA → sA.writer = .done →
      sA.out = createHeaders :: recordedA sA ∧
      (recordedA sA).length = input.length ∧
      Multiset.ofList ((recordedA sA).map recordTarget) = Multiset.ofList input) ∧
    (∀ sB : StateB, ReachableB regex input sB → sB.main = .finished →
      sB.out.length = input.length ∧
      Multiset.ofList (sB.out.map Row.url) = Multiset.ofList input) := by
  refine ⟨fun sA hA hdoneA => ?_, fun sB hB hdoneB => ?_⟩
  · have pA := exactly_once_A_aux regex input sA hA hdoneA
    exact ⟨pA.1, by simpa using pA.2.length_eq, Multiset.coe_eq_coe.2 pA.2⟩
  · have pB := exactly_once_B regex input sB hB hdoneB
    exact ⟨by simpa using pB.length_eq, Multiset.coe_eq_coe.2 pB⟩

/-- C1 on the three targets of `input3`, at the end of the runs `actsA3` and
`actsB3`. -/
theorem exactly_once_accounting_witness :
    (finalA3.out = createHeaders :: recordedA finalA3 ∧
      (recordedA finalA3).length = input3.length ∧
      Multiset.ofList ((recordedA finalA3).map recordTarget) = Multiset.ofList input3) ∧
    (finalB3.out.length = input3.length ∧
      Multiset.ofList (finalB3.out.map Row.url) = Multiset.ofList input3) :=
  ⟨(exactly_once_accounting treasureRegexp input3).1 finalA3 ⟨actsA3, runA_actsA3⟩
      (by decide),
    (exactly_once_accounting treasureRegexp input3).2 finalB3 ⟨actsB3, runB_actsB3⟩
      (by decide)⟩

/-- C2. In every state a run of variant B can be in, the `fetchAndSearch`
goroutines started and not yet past the release of their slot are at most
`maxGo = 20`, and the semaphore channel holds at most 20 values; the final
loop of `main` is part of the run. -/
theorem semaphore_bounds_running_tasks (regex : Regexp) (input : List String) (s : StateB)
    (h : ReachableB regex input s) : runningB s ≤ maxGo ∧ s.sem ≤ maxGo ∧ maxGo = 20 := by
  have hi := invB_reachable h
  have h1 := hi.sem_le
  have h2 := hi.sem_eq
  rw [runningB_eq]
  refine ⟨by omega, h1, rfl⟩

/-- C2 in the state `midB3`, where three goroutines run. -/
theorem semaphore_bounds_running_tasks_witness :
    runningB midB3 = 3 ∧ (runningB midB3 ≤ maxGo ∧ midB3.sem ≤ maxGo ∧ maxGo = 20) :=
  ⟨by decide,
    semaphore_bounds_running_tasks treasureRegexp input3 midB3 ⟨actsB3mid, runB_actsB3mid⟩⟩

/-- C3 fails as stated: on twenty-one targets variant A reaches the state
`state21`, in which twenty targets are held by search goroutines that have
not sent their `SearchResult` and worker 0 holds the last one, its GET done:
twenty-one targets are in the Fetching or Matching state, more than
`maxgo = 20`. -/
theorem worker_pool_exceeds_maxgo :
    ReachableA treasureRegexp input21 state21 ∧ inFlightA state21 = 21 ∧ maxgo = 20 ∧
      (state21.searches.filter SearchPc.matching).length = 20 ∧ fetchingA state21 = 1 :=
  ⟨⟨acts21, runA_acts21⟩, by decide, rfl, by decide, by decide⟩

/-- C3 amended. In every state a run of variant A can be in, the targets in
the Fetching state (the GET has started in `fetch` and the `HTTPResponse` has
not been sent on `rc` yet) are at most `maxgo = 20`. -/
theorem fetching_bounded_by_maxgo (regex : Regexp) (input : List String) (s : StateA)
    (h : ReachableA regex input s) : fetchingA s ≤ maxgo ∧ maxgo = 20 := by
  have hi := invA_reachable h
  refine ⟨?_, rfl⟩
  unfold fetchingA
  rw [← hi.workers.len]
  exact List.length_filter_le _ _

/-- C3 amended, in the state `state21`. -/
theorem fetching_bounded_by_maxgo_witness : fetchingA state21 ≤ maxgo ∧ maxgo = 20 :=
  fetching_bounded_by_maxgo treasureRegexp input21 state21 ⟨acts21, runA_acts21⟩

/-- C4. Deadlock freedom: every state a run of variant A can be in in which
`writeResults` has not returned, and every state a run of variant B can be in
in which `main` is not past its final loop, has an enabled step (a GET and
the read of a body always return: their step is always enabled). -/
theorem deadlock_freedom (regex : Regexp) (input : List String) :
    (∀ sA : StateA, ReachableA regex input sA → sA.writer ≠ .done →
      ∃ a, (stepA regex sA a).isSome = true) ∧
    (∀ sB : StateB, ReachableB regex input sB → sB.main ≠ .finished →
      ∃ a, (stepB regex sB a).isSome = true) :=
  ⟨progress_A regex input, progress_B regex input⟩

/-- C4 in the states `midA3` and `midB3`, in the middle of a run. -/
theorem deadlock_freedom_witness :
    (∃ a, (stepA treasureRegexp midA3 a).isSome = true) ∧
      (∃ a, (stepB treasureRegexp midB3 a).isSome = true) :=
  ⟨(deadlock_freedom treasureRegexp input3).1 midA3 ⟨actsA3mid, runA_actsA3mid⟩ (by decide),
    (deadlock_freedom treasureRegexp input3).2 midB3 ⟨actsB3mid, runB_actsB3mid⟩ (by decide)⟩

/-- C5. Errors become data, in `search` of variant A and in `fetchAndSearch`
of variant B.  When the GET returns an error the outcome is unmatched with
that error, and the body is not read, even when a response came with the
error; when the GET succeeds and the read of the body fails the outcome is
unmatched with the read error; when both succeed the outcome has no error. -/
theorem errors_become_data (url : String) (regex : Regexp) :
    (∀ (resp : Option Response) (e : Err),
      search (fetchResponse url (.fail resp e)) regex
          = some ({ url := url, result := false, err := some e }, []) ∧
        fetchAndSearch url (.fail resp e) regex
          = ({ url := url, res := false, err := some e }, []) ∧
        BodyOp.readAll ∉ fetchAfterSend (fetchResponse url (.fail resp e))) ∧
    (∀ (status : Nat) (data : Bytes) (e : Err),
      search (fetchResponse url (.ok ⟨status, ⟨data, some e⟩⟩)) regex
          = some ({ url := url, result := false, err := some e }, [BodyOp.readAll]) ∧
        (fetchAndSearch url (.ok ⟨status, ⟨data, some e⟩⟩) regex).1
          = { url := url, res := false, err := some e }) ∧
    (∀ (status : Nat) (data : Bytes),
      search (fetchResponse url (.ok ⟨status, ⟨data, none⟩⟩)) regex
          = some ({ url := url, result := regex data, err := none }, [BodyOp.readAll]) ∧
        (fetchAndSearch url (.ok ⟨status, ⟨data, none⟩⟩) regex).1
          = { url := url, res := regex data, err := none }) := by
  refine ⟨fun resp e => ⟨rfl, rfl, ?_⟩, fun status data e => ⟨rfl, rfl⟩,
    fun status data => ⟨rfl, rfl⟩⟩
  unfold fetchAfterSend fetchResponse
  cases resp with
  | none => simp [GetResult.resp, GetResult.err]
  | some r =>
    simp only [GetResult.resp, GetResult.err]
    split <;> simp

/-- C6. Match result on success: when the GET succeeds and the body reads in
full as `b`, the outcome of `search` (variant A) and of `fetchAndSearch`
(variant B) is for the same target, has no error, and is matched exactly when
the compiled pattern matches `b`. -/
theorem match_result_on_success (url : String) (status : Nat) (b : Bytes) (regex : Regexp) :
    search (fetchResponse url (.ok ⟨status, ⟨b, none⟩⟩)) regex
        = some ({ url := url, result := regex b, err := none }, [BodyOp.readAll]) ∧
      (fetchAndSearch url (.ok ⟨status, ⟨b, none⟩⟩) regex).1
        = { url := url, res := regex b, err := none } :=
  ⟨rfl, rfl⟩

/-- C7 fails as stated: a response with status 404 returned without an error
and whose body holds the search term gives, in both variants, a matched
outcome without an error. -/
theorem not_found_page_is_matched :
    404 ≠ StatusOK ∧
      search (fetchResponse "a.test" (.ok ⟨404, islandBody⟩)) treasureRegexp
        = some ({ url := "a.test", result := true, err := none }, [BodyOp.readAll]) ∧
      (fetchAndSearch "a.test" (.ok ⟨404, islandBody⟩) treasureRegexp).1
        = { url := "a.test", res := true, err := none } := by
  decide

/-- C7 amended. In both variants the status code of a response returned
without an error plays no part: the outcome is the one of the same body
under any other status, unmatched with the read error when the read of the
body fails, else without error and matched as the pattern matches the body.
A GET that returns an error, with or without a response of any status, gives
an unmatched outcome with that error. -/
theorem status_code_is_ignored (url : String) (status status' : Nat) (body : Body)
    (regex : Regexp) :
    search (fetchResponse url (.ok ⟨status, body⟩)) regex
        = search (fetchResponse url (.ok ⟨status', body⟩)) regex ∧
      fetchAndSearch url (.ok ⟨status, body⟩) regex
        = fetchAndSearch url (.ok ⟨status', body⟩) regex ∧
      (∃ ops, search (fetchResponse url (.ok ⟨status, body⟩)) regex
        = some ({ url := url, result := body.readErr.isNone && regex body.data,
                  err := body.readErr }, ops)) ∧
      (fetchAndSearch url (.ok ⟨status, body⟩) regex).1
        = { url := url, res := body.readErr.isNone && regex body.data, err := body.readErr } ∧
      (∀ (resp : Option Response) (e : Err),
        search (fetchResponse url (.fail resp e)) regex
          = some ({ url := url, result := false, err := some e }, []) ∧
        (fetchAndSearch url (.fail resp e) regex).1
          = { url := url, res := false, err := some e }) := by
  refine ⟨rfl, rfl, ?_, ?_, fun resp e => ⟨rfl, rfl⟩⟩
  · obtain ⟨data, readErr⟩ := body
    cases readErr with
    | none =>
      exact ⟨[BodyOp.readAll],
        by simp [search, fetchResponse, GetResult.err, GetResult.resp, ReadAll]⟩
    | some e =>
      exact ⟨[BodyOp.readAll],
        by simp [search, fetchResponse, GetResult.err, GetResult.resp, ReadAll]⟩
  · obtain ⟨data, readErr⟩ := body
    cases readErr <;> simp [fetchAndSearch, ReadAll]

/-- C8 fails on the code: when the GET of variant A succeeds, neither `fetch`
(whose `Close` is guarded by `err != nil`) nor `search` closes the body,
whatever the status and whether the read succeeds; `fetchAndSearch` of
variant B closes it. -/
theorem body_left_open_on_success (url : String) (resp : Response) (regex : Regexp) :
    (∃ sr ops, search (fetchResponse url (.ok resp)) regex = some (sr, ops) ∧
      ops = [BodyOp.readAll] ∧
      fetchAfterSend (fetchResponse url (.ok resp)) = [] ∧
      BodyOp.close ∉ fetchAfterSend (fetchResponse url (.ok resp)) ++ ops) ∧
    BodyOp.close ∈ (fetchAndSearch url (.ok resp) regex).2 := by
  obtain ⟨status, data, readErr⟩ := resp
  cases readErr with
  | none =>
    exact ⟨⟨_, _, rfl, rfl, rfl, by simp [fetchAfterSend, fetchResponse, GetResult.err]⟩,
      by simp [fetchAndSearch, ReadAll]⟩
  | some e =>
    exact ⟨⟨_, _, rfl, rfl, rfl, by simp [fetchAfterSend, fetchResponse, GetResult.err]⟩,
      by simp [fetchAndSearch, ReadAll]⟩

/-- C9 fails as stated: a complete run of variant B on the empty input ends
with an empty output, and the complete run `actsB3` on three targets ends
with three rows, the first of which is the outcome of `c.test`: variant B
writes no header row. -/
theorem variant_B_writes_no_header :
    (∃ s, runB treasureRegexp (initB []) actsB0 = some s ∧ s.main = .finished ∧
        s.out = []) ∧
      ReachableB treasureRegexp input3 finalB3 ∧ finalB3.main = .finished ∧
      finalB3.out = [{ url := "c.test", res := false, err := none },
        { url := "a.test", res := true, err := none },
        { url := "b.test", res := false, err := some "timeout" }] :=
  ⟨⟨_, show runB treasureRegexp (initB []) actsB0
      = some { rows := [], main := .finished, sem := 20, mu := false, tasks := [], out := [] }
      by decide, rfl, rfl⟩,
    ⟨actsB3, runB_actsB3⟩, by decide, by decide⟩

/-- C9 amended. When a run of variant A has ended, its output is the header
record followed by the outcome records, each the record of a `SearchResult`
and none equal to the header record.  When a run of variant B has ended, its
output has no header row: it is made of one row per input target (as many
rows as input targets, the multiset of their targets being the one of the
input targets), and no line written for a row decodes to the header
record. -/
theorem header_row_in_variant_A_only (regex : Regexp) (input : List String) :
    (∀ sA : StateA, ReachableA regex input sA → sA.writer = .done →
      sA.out = createHeaders :: recordedA sA ∧
      ∀ r ∈ recordedA sA, (∃ sr, r = createRecord sr) ∧ r ≠ createHeaders) ∧
    (∀ sB : StateB, ReachableB regex input sB → sB.main = .finished →
      sB.out.length = input.length ∧
      Multiset.ofList (sB.out.map Row.url) = Multiset.ofList input ∧
      (∀ row ∈ sB.out, row.url ∈ input) ∧
      ∀ (uni : Char → Bool), ∀ row ∈ sB.out,
        csvDecode (writeToFile uni row.url row.res row.err) ≠ some createHeaders) := by
  refine ⟨fun sA hA hdoneA => ?_, fun sB hB hdoneB => ?_⟩
  · have hiA := invA_reachable hA
    refine ⟨(exactly_once_A_aux regex input sA hA hdoneA).1, fun r hr => ?_⟩
    obtain ⟨sr, hsr⟩ := hiA.out_recs r hr
    exact ⟨⟨sr, hsr⟩, hsr ▸ createRecord_ne_createHeaders sr⟩
  · have pB := exactly_once_B regex input sB hB hdoneB
    refine ⟨by simpa using pB.length_eq, Multiset.coe_eq_coe.2 pB, fun row hrow => ?_,
      fun uni row _ => writeToFile_ne_headers uni row.url row.res row.err⟩
    exact pB.subset (List.mem_map_of_mem Row.url hrow)

/-- C9 amended, at the end of the runs `actsA3` and `actsB3`. -/
theorem header_row_in_variant_A_only_witness :
    finalA3.out = [["url", "result", "error"], ["a.test", "true", ""],
      ["b.test", "false", "timeout"], ["c.test", "false", ""]] ∧
    (finalA3.out = createHeaders :: recordedA finalA3 ∧
      ∀ r ∈ recordedA finalA3, (∃ sr, r = createRecord sr) ∧ r ≠ createHeaders) ∧
    (finalB3.out.length = input3.length ∧
      Multiset.ofList (finalB3.out.map Row.url) = Multiset.ofList input3 ∧
      (∀ row ∈ finalB3.out, row.url ∈ input3) ∧
      ∀ (uni : Char → Bool), ∀ row ∈ finalB3.out,
        csvDecode (writeToFile uni row.url row.res row.err) ≠ some createHeaders) :=
  ⟨by decide,
    (header_row_in_variant_A_only treasureRegexp input3).1 finalA3 ⟨actsA3, runA_actsA3⟩
      (by decide),
    (header_row_in_variant_A_only treasureRegexp input3).2 finalB3 ⟨actsB3, runB_actsB3⟩
      (by decide)⟩

/-- C10 fails on the code: for the url `a.test`, the result `false` and the
error text `getErrText`, which quotes the url as the errors of `client.Get`
do, `writeToFile` writes the double quotes of the text with a backslash; the
line is not a well-formed CSV record, while `createRecord` of variant A gives
the three fields.  With the error text `timeout` the line does decode to the
fields of `createRecord`. -/
theorem writeToFile_line_is_not_csv (uni : Char → Bool) :
    writeToFile uni "a.test" false (some getErrText)
        = String.mk ([dquote] ++ "a.test".toList ++ [dquote] ++ ",false,".toList ++ [dquote]
            ++ "Get ".toList ++ [backslash, dquote] ++ "http://a.test".toList
            ++ [backslash, dquote] ++ ": EOF".toList ++ [dquote] ++ [Char.ofNat 10]) ∧
      csvDecode (writeToFile uni "a.test" false (some getErrText)) = none ∧
      createRecord { url := "a.test", result := false, err := some getErrText }
        = ["a.test", "false", getErrText] ∧
      csvDecode (writeToFile uni "a.test" false (some "timeout"))
        = some (createRecord { url := "a.test", result := false, err := some "timeout" }) :=
  ⟨rfl, rfl, rfl, rfl⟩

end WebsiteSearcher
